import Mathlib

/-!
# tofu-template-tester: a verification development

A shallow embedding of `main.go` (placeholder scanning, properties loading,
template rendering) and theorems about it.

Conventions of the embedding
* Go `string` values are lists of Unicode code points (`Str := List Char`), i.e.
  valid UTF-8 text.  Every byte the program inspects (`$`, `{`, `}`, `=`, `#`,
  newline, the identifier characters) is ASCII, so positions and comparisons on
  code points agree with the ones on bytes.
* A Go `map[string]string` is an association list without repeated keys
  (`GoMap`), read with `GoMap.get` and written with `GoMap.set`.
* A call of `exitErr(err)` ends the process; a function that may do so returns
  an `Except`, the error being the text of `err` (with `promptForVars`, which
  prints, also what standard output holds by then).  `main` returns what the
  run leaves behind (`Run`): the two output streams, the exit status, the file
  written; there `exitErr` is the line `Error: <err>` on the error stream and
  status 1.
* Standard input is a text, read to its end by `readInput` when `--in` is
  unset, and line by line by the scanner of `promptForVars`.
-/

namespace TofuTemplateTester

/-- Go strings, as lists of code points. -/
abbrev Str := List Char

/-! ## The regular expression `varRe`

`\${\s*([A-Za-z0-9_]+)\s*}` (Go `regexp`, RE2 syntax). -/

/-- The class `\s` of Go's `regexp/syntax`: `[\t\n\f\r ]`. -/
def isReSpace (c : Char) : Bool :=
  c.toNat == 9 || c.toNat == 10 || c.toNat == 12 || c.toNat == 13 || c.toNat == 32

/-- The class `[A-Za-z0-9_]`. -/
def isWordChar (c : Char) : Bool :=
  (65 ≤ c.toNat && c.toNat ≤ 90) || (97 ≤ c.toNat && c.toNat ≤ 122) ||
    (48 ≤ c.toNat && c.toNat ≤ 57) || c.toNat == 95

/-- One successful match of `varRe`: the matched text and capture group 1. -/
structure Match where
  /-- The whole matched text (`m[0]`). -/
  whole : Str
  /-- The text of capture group 1 (`m[1]`), the identifier. -/
  group1 : Str
deriving DecidableEq, Repr

/-- The expression `varRe` anchored at the start of `s`: `$`, `{`, a greedy run of `\s`,
a greedy non-empty run of identifier characters, a greedy run of `\s`, `}`.  The three
classes and `}` are pairwise disjoint, so the greedy choice is the only one that can
succeed.  Returns the match and the text after it. -/
def matchPrefix (s : Str) : Option (Match × Str) :=
  match s with
  | '$' :: '{' :: r =>
    let ws1 := r.takeWhile isReSpace
    let r1 := r.dropWhile isReSpace
    let name := r1.takeWhile isWordChar
    let r2 := r1.dropWhile isWordChar
    let ws2 := r2.takeWhile isReSpace
    let r3 := r2.dropWhile isReSpace
    match name, r3 with
    | _ :: _, '}' :: rest =>
      some (⟨'$' :: '{' :: (ws1 ++ name ++ ws2 ++ ['}']), name⟩, rest)
    | _, _ => none
  | _ => none

/-- A piece of a text cut by the successive non-overlapping matches of `varRe`, leftmost
first: a character outside every match, or a match. -/
inductive Piece where
  | text (c : Char)
  | hit (m : Match)
deriving DecidableEq, Repr

/-- The scan loop shared by `FindAll...` and `ReplaceAll...`: at each position try the
expression; on a match continue after it, otherwise step over one character.  The first
argument bounds the number of steps. -/
def piecesAux : Nat → Str → List Piece
  | 0, _ => []
  | _, [] => []
  | n + 1, c :: cs =>
    match matchPrefix (c :: cs) with
    | some (m, rest) => Piece.hit m :: piecesAux n rest
    | none => Piece.text c :: piecesAux n cs

/-- The pieces of `s`; `s.length` steps are enough as every step consumes a character. -/
def pieces (s : Str) : List Piece := piecesAux s.length s

/-- Model of `varRe.FindStringSubmatch(s)`: the leftmost match, `none` for Go's `nil`. -/
def findStringSubmatch : Str → Option Match
  | [] => none
  | c :: cs =>
    match matchPrefix (c :: cs) with
    | some (m, _) => some m
    | none => findStringSubmatch cs

/-- Model of `varRe.FindAllStringSubmatch(s, -1)`: all successive matches. -/
def findAllStringSubmatch (s : Str) : List Match :=
  (pieces s).filterMap fun p =>
    match p with
    | Piece.hit m => some m
    | Piece.text _ => none

/-- Model of `varRe.ReplaceAllStringFunc(src, repl)` for a callback that may end the
process: the callback runs on each match in order, left to right, as the match is found. -/
def replaceAllStringFunc (src : Str) (repl : Str → Except Str Str) : Except Str Str :=
  go (pieces src)
where
  /-- Left-to-right assembly of the result. -/
  go : List Piece → Except Str Str
    | [] => .ok []
    | Piece.text c :: ps => do
      let out ← go ps
      pure (c :: out)
    | Piece.hit m :: ps => do
      let v ← repl m.whole
      let out ← go ps
      pure (v ++ out)

/-! ## Strings in order, `sort.Strings` -/

/-- Go's `a < b` on strings: lexicographic on bytes, which for UTF-8 text is
lexicographic on code points. -/
def strLt : Str → Str → Bool
  | _, [] => false
  | [], _ :: _ => true
  | a :: as, b :: bs => decide (a.toNat < b.toNat) || (decide (a.toNat = b.toNat) && strLt as bs)

/-- The order `sort.Strings` sorts by: `a` may stand before `b` when `b < a` is false. -/
def StrLe (a b : Str) : Prop := strLt b a = false

instance : DecidableRel StrLe := fun a b => inferInstanceAs (Decidable (strLt b a = false))

/-- Model of `sort.Strings`: the ascending rearrangement of the slice. -/
def sortStrings (xs : List Str) : List Str := xs.insertionSort StrLe

/-! ## Go maps -/

/-- A `map[string]string`: its entries, no key twice. -/
structure GoMap where
  /-- The key/value entries. -/
  entries : List (Str × Str)
deriving DecidableEq, Repr

namespace GoMap

/-- Model of `make(map[string]string)`. -/
def empty : GoMap := ⟨[]⟩

/-- Lookup in a list of entries. -/
def lookup : List (Str × Str) → Str → Option Str
  | [], _ => none
  | (k, v) :: es, key => if k = key then some v else lookup es key

/-- Replace or add an entry in a list of entries. -/
def update : List (Str × Str) → Str → Str → List (Str × Str)
  | [], key, val => [(key, val)]
  | (k, v) :: es, key, val => if k = key then (k, val) :: es else (k, v) :: update es key val

/-- Model of `v, ok := m[key]`: `none` when `ok` is false. -/
def get (m : GoMap) (key : Str) : Option Str := lookup m.entries key

/-- Model of `m[key] = val`. -/
def set (m : GoMap) (key val : Str) : GoMap := ⟨update m.entries key val⟩

/-- Model of `len(m)`. -/
def len (m : GoMap) : Nat := m.entries.length

end GoMap

/-! ## `listParams` and `processTemplate` -/

/-- Model of the `set[m[1]] = struct{}{}` loop of `listParams` followed by the `range`
over the set: the distinct names (Go ranges over them in an unspecified order, which the
sort after it makes irrelevant). -/
def nameSet (ms : List Match) : List Str :=
  ms.foldl (fun set m => if m.group1 ∈ set then set else set ++ [m.group1]) []

/-- Model of `listParams`. -/
def listParams (template : Str) : List Str :=
  let ms := findAllStringSubmatch template
  let vars := nameSet ms
  sortStrings vars

/-- The callback `processTemplate` hands to `ReplaceAllStringFunc`.  Indexing the `nil`
result of a failed `FindStringSubmatch` would be a run-time panic. -/
def replaceMatch (props : GoMap) (mtch : Str) : Except Str Str :=
  match findStringSubmatch mtch with
  | none => .error "panic: runtime error: index out of range [1] with length 0".toList
  | some sm =>
    let key := sm.group1
    match props.get key with
    | none => .error ("missing property: ".toList ++ key)
    | some val => .ok val

/-- Model of `processTemplate`: the returned pair is `(string, error)`, the error always
`nil` (`none`); a missing key ends the process through `exitErr`. -/
def processTemplate (tmpl : Str) (props : GoMap) : Except Str (Str × Option Str) := do
  let out ← replaceAllStringFunc tmpl (replaceMatch props)
  pure (out, none)

/-! ## `loadProperties` -/

/-- Model of `unicode.IsSpace`, the characters `strings.TrimSpace` removes. -/
def isSpace (c : Char) : Bool :=
  (9 ≤ c.toNat && c.toNat ≤ 13) || c.toNat == 32 || c.toNat == 0x85 || c.toNat == 0xA0 ||
    c.toNat == 0x1680 || (0x2000 ≤ c.toNat && c.toNat ≤ 0x200A) || c.toNat == 0x2028 ||
    c.toNat == 0x2029 || c.toNat == 0x202F || c.toNat == 0x205F || c.toNat == 0x3000

/-- Model of `strings.TrimSpace`. -/
def trimSpace (s : Str) : Str :=
  ((s.dropWhile isSpace).reverse.dropWhile isSpace).reverse

/-- Model of `strings.HasPrefix`. -/
def hasPrefix (s pre : Str) : Bool := pre.isPrefixOf s

/-- Model of `strings.SplitN(s, "=", 2)`: cut at the first `=`, if there is one. -/
def splitN2 (s : Str) : List Str :=
  match s.dropWhile (fun c => c != '=') with
  | [] => [s]
  | _ :: after => [s.takeWhile (fun c => c != '='), after]

/-- The constant `bufio.MaxScanTokenSize`. -/
def maxScanTokenSize : Nat := 64 * 1024

/-- Number of bytes of the UTF-8 encoding of a text. -/
def utf8Len (s : Str) : Nat := (s.map Char.utf8Size).sum

/-- The function `dropCR` of `bufio`: drop one trailing carriage return. -/
def dropCR (s : Str) : Str :=
  match s.getLast? with
  | some '\r' => s.dropLast
  | _ => s

/-- The text of `bufio.ErrTooLong`. -/
def errTooLong : Str := "bufio.Scanner: token too long".toList

/-- The lines as `bufio.ScanLines` delimits them, before `dropCR`: the text between
newlines, the last one ending at the end of the data when it is not empty. -/
def rawLines : Str → List Str
  | [] => []
  | c :: cs =>
    if c = '\n' then [] :: rawLines cs
    else
      match rawLines cs with
      | [] => [[c]]
      | l :: ls => (c :: l) :: ls

/-- A line fits the buffer of the scanner, which grows up to `MaxScanTokenSize` bytes, when
it is shorter than that. -/
def fits (line : Str) : Bool := decide (utf8Len line < maxScanTokenSize)

/-- The lines the scanner delivers out of the lines of the data: those before the first
one of `MaxScanTokenSize` bytes or more, which does not fit the buffer, each without its
trailing carriage return; and the error of the scanner, `ErrTooLong` if there is such a
line. -/
def deliver (raw : List Str) : List Str × Option Str :=
  let fit := raw.takeWhile fits
  (fit.map dropCR, if fit.length < raw.length then some errTooLong else none)

/-- Model of a `bufio.Scanner` with the default buffer run to its end over a readable
file: the tokens of the successive `Scan()` calls that return true, and then `Err()`. -/
def scanLines (data : Str) : List Str × Option Str :=
  deliver (rawLines data)

/-- The `for scanner.Scan()` loop of `loadProperties` over the lines still to come, with
the mapping built so far; `scanErr` is what `scanner.Err()` returns after the last line.
The result is the pair `(map, error)` the function returns, `none` for `nil`. -/
def loadLoop (scanErr : Option Str) : List Str → GoMap → Option GoMap × Option Str
  | [], props => (some props, scanErr)
  | line :: rest, props =>
    if trimSpace line = [] || hasPrefix line "#".toList then
      loadLoop scanErr rest props
    else
      match splitN2 line with
      | [k, v] => loadLoop scanErr rest (props.set (trimSpace k) (trimSpace v))
      | _ => (none, some ("invalid property line: ".toList ++ line))

/-- A file system as `os.Open` sees it: the error of the open, or the content. -/
abbrev FS := Str → Except Str Str

/-- Model of `loadProperties`. -/
def loadProperties (fs : FS) (path : Str) : Option GoMap × Option Str :=
  match fs path with
  | .error err => (none, some err)
  | .ok content =>
    let props := GoMap.empty
    let (lines, scanErr) := scanLines content
    loadLoop scanErr lines props

/-- A file system holding one file. -/
def oneFile (name content : Str) : FS := fun p =>
  if p = name then .ok content else .error ("open ".toList ++ p ++ ": no such file or directory".toList)

/-! ## `promptForVars` -/

/-- The process ends in a call `exitErr(err)`: what it has written on standard output by
then, and the text of `err`. -/
structure Exit where
  /-- The text written on standard output before the exit. -/
  stdout : Str
  /-- The text of the error handed to `exitErr`. -/
  err : Str
deriving DecidableEq, Repr

/-- What a returning call of `promptForVars` leaves behind. -/
structure Prompted where
  /-- The mapping returned. -/
  props : GoMap
  /-- The lines of the input the scanner has not delivered yet. -/
  unread : List Str
  /-- The text written on standard output, the prompts. -/
  stdout : Str
deriving DecidableEq, Repr

/-- The `for _, v := range vars` loop of `promptForVars`: the names still to visit, the
mapping, the lines the scanner on standard input still has to deliver (`s.Scan()` is false
when there is none), and the text printed so far. -/
def promptLoop : List Str → GoMap → List Str → Str → Except Exit Prompted
  | [], existing, input, out => .ok ⟨existing, input, out⟩
  | v :: vars, existing, input, out =>
    match existing.get v with
    | some _ => promptLoop vars existing input out
    | none =>
      let out := out ++ (v ++ ": ".toList)
      match input with
      | [] => .error ⟨out, "input aborted".toList⟩
      | line :: input => promptLoop vars (existing.set v line) input out

/-- Model of `promptForVars`, with the content of standard input as a parameter: the
scanner delivers its lines as `scanLines` has them. -/
def promptForVars (stdin : Str) (vars : List Str) (existing : GoMap) : Except Exit Prompted :=
  promptLoop vars existing (scanLines stdin).1 []

/-! ## `main` -/

/-- The command-line flags. -/
structure Flags where
  /-- The flag `--list-params`. -/
  list : Bool
  /-- The flag `--in`. -/
  inPath : Str
  /-- The flag `--properties`. -/
  props : Str
  /-- The flag `--interactive`. -/
  interactive : Bool
  /-- The flag `--out`. -/
  out : Str

/-- The surroundings of a run: the files that can be read, standard input, and the
failures of the output.  A file that is opened but cannot be read to its end counts with
those that cannot be opened: `main` hands either error to `exitErr`.  The errors of
`fmt.Printf` and `fmt.Println` are dropped by the program and are not modelled. -/
structure World where
  /-- The file system as `os.Open` sees it. -/
  fs : FS
  /-- The content of standard input, as far as it can be read. -/
  stdin : Str
  /-- The error of `io.ReadAll` on standard input, `none` when it is read to its end. -/
  stdinErr : Option Str
  /-- The error of `os.Create` on a path, `none` when the file can be created. -/
  createErr : Str → Option Str
  /-- The failure of `writer.Write` of a text to a destination (a path, the empty one for
  standard output): the number of characters written before the error, and the error;
  `none` when the whole text is written. -/
  writeErr : Str → Str → Option (Nat × Str)

/-- What a run of the program leaves behind. -/
structure Run where
  /-- The text written on standard output. -/
  stdout : Str
  /-- The text written on the error stream. -/
  stderr : Str
  /-- The exit status. -/
  status : Nat
  /-- The file created by `writeOutput` and the text written to it, if any. -/
  file : Option (Str × Str)
deriving DecidableEq, Repr

/-- Model of `exitErr` in a process that has written `stdout` so far: the line
`Error: <err>` on the error stream and exit status 1. -/
def exitErr (stdout err : Str) : Run :=
  ⟨stdout, "Error: ".toList ++ err ++ ['\n'], 1, none⟩

/-- Model of `readInput`: the pair `(string, error)` as an `Except`, and what is left of
standard input, which is read to its end when the path is empty. -/
def readInput (w : World) (path : Str) : Except Str Str × Str :=
  if path = [] then
    match w.stdinErr with
    | some err => (.error err, [])
    | none => (.ok w.stdin, [])
  else (w.fs path, w.stdin)

/-- Model of `writeOutput`: the text it adds to standard output, the file it creates and
the text written to it, and the error it returns, the one of `os.Create` or the one of
`writer.Write`; with the latter the destination holds what was written before the error. -/
def writeOutput (w : World) (output path : Str) : Str × Option (Str × Str) × Option Str :=
  if path = [] then
    match w.writeErr path output with
    | some (n, err) => (output.take n, none, some err)
    | none => (output, none, none)
  else
    match w.createErr path with
    | some err => ([], none, some err)
    | none =>
      match w.writeErr path output with
      | some (n, err) => ([], some (path, output.take n), some err)
      | none => ([], some (path, output), none)

/-- The text of `fmt.Println(n)` for each name in turn. -/
def printLines : List Str → Str
  | [] => []
  | n :: ns => n ++ '\n' :: printLines ns

/-- The blocks `Load properties` and `Interactive prompts` of `main`: the mapping handed
to `processTemplate`, with the text printed on the way, or the exit.  A nil map reads as
an empty one; `loadProperties` returns none with a nil error. -/
def resolve (flags : Flags) (w : World) (stdin input : Str) : Except Exit (GoMap × Str) :=
  let loaded :=
    if flags.props = [] then (some GoMap.empty, none) else loadProperties w.fs flags.props
  match loaded with
  | (_, some err) => .error ⟨[], err⟩
  | (props, none) =>
    if flags.interactive then
      match promptForVars stdin (listParams input) (props.getD GoMap.empty) with
      | .error e => .error e
      | .ok r => .ok (r.props, r.stdout)
    else .ok (props.getD GoMap.empty, [])

/-- Model of `main`. -/
def main (flags : Flags) (w : World) : Run :=
  match readInput w flags.inPath with
  | (.error err, _) => exitErr [] err
  | (.ok input, stdin) =>
    if flags.list then
      ⟨printLines (listParams input), [], 0, none⟩
    else
      match resolve flags w stdin input with
      | .error e => exitErr e.stdout e.err
      | .ok (props, printed) =>
        match processTemplate input props with
        | .error err => exitErr printed err
        | .ok (_, some err) => exitErr printed err
        | .ok (output, none) =>
          match writeOutput w output flags.out with
          | (text, file, some err) =>
            ⟨printed ++ text, "Error: ".toList ++ err ++ ['\n'], 1, file⟩
          | (text, file, none) => ⟨printed ++ text, [], 0, file⟩

/-- The text of the prompts for a list of names. -/
def promptText : List Str → Str
  | [] => []
  | n :: ns => n ++ ": ".toList ++ promptText ns

/-- The names of a list that have no value in a mapping. -/
def absentNames (vars : List Str) (M : GoMap) : List Str :=
  vars.filter fun v => M.get v == none

/-- The prompts of a run on the template `T` with the loaded properties `P` and the
standard input `rest`: with `--interactive` one prompt for each name of the template
without a value, in order, up to the first name for which the input has no line; none
without `--interactive`. -/
def promptsOf (flags : Flags) (T : Str) (P : GoMap) (rest : Str) : Str :=
  if flags.interactive then
    promptText ((absentNames (listParams T) P).take ((scanLines rest).1.length + 1))
  else []

/-- After the prompts, the run has written `text` to its output destination and nothing
else: on standard output when `--out` is unset, else to the file of `--out`. -/
def Written (flags : Flags) (r : Run) (prompts text : Str) : Prop :=
  (flags.out = [] ∧ r.stdout = prompts ++ text ∧ r.file = none) ∨
  (flags.out ≠ [] ∧ r.stdout = prompts ∧ r.file = some (flags.out, text))

/-- The outcome of a run on the template `T` read with `rest` left of standard input and
the loaded properties `P`, in the words of the specification, amended.  Either the run
fails with no file written and only the prompts on standard output; or the mapping is
resolved to `R`, the template renders to `out`, and then either the run succeeds with
`out` written whole to the destination, or `writer.Write` fails, the run fails and the
destination holds the part of `out` written before the error. -/
def RenderedWholeOrNot (flags : Flags) (w : World) (T rest : Str) (P : GoMap) : Prop :=
  ((main flags w).status = 1 ∧ (main flags w).file = none ∧
    (main flags w).stdout = promptsOf flags T P rest) ∨
  ∃ (R : GoMap) (out : Str),
    resolve flags w rest T = .ok (R, promptsOf flags T P rest) ∧
    processTemplate T R = .ok (out, none) ∧
    (((main flags w).status = 0 ∧ (main flags w).stderr = [] ∧
        w.writeErr flags.out out = none ∧
        Written flags (main flags w) (promptsOf flags T P rest) out) ∨
      ∃ (n : Nat) (err : Str), w.writeErr flags.out out = some (n, err) ∧
        (main flags w).status = 1 ∧
        Written flags (main flags w) (promptsOf flags T P rest) (out.take n))

/-- The outcome of a run without `--list-params`, in the words of the specification,
amended: the run fails with nothing written at all (the template or the properties could
not be loaded), or the template `T` and the properties `P` are loaded (`P` is empty when
`--properties` is unset) and the run is as `RenderedWholeOrNot` says. -/
def AllOrNothing (flags : Flags) (w : World) : Prop :=
  ((main flags w).status = 1 ∧ (main flags w).stdout = [] ∧ (main flags w).file = none) ∨
  ∃ (T rest : Str) (P : GoMap),
    readInput w flags.inPath = (.ok T, rest) ∧
    ((flags.props = [] ∧ P = GoMap.empty) ∨
      (flags.props ≠ [] ∧ loadProperties w.fs flags.props = (some P, none))) ∧
    RenderedWholeOrNot flags w T rest P

/-- The distinct elements of a list, in the order of their first occurrences. -/
def distinct : List Str → List Str
  | [] => []
  | v :: vs => v :: (distinct vs).filter fun x => decide (x ≠ v)

/-! ## The placeholder grammar in the words of the specification -/

/-- The text `p` is a placeholder with identifier `n`: `$`, `{`, optional whitespace, the
identifier (a non-empty run of `[A-Za-z0-9_]`), optional whitespace, `}`.  Whitespace is
the class `\s` of the expression. -/
def IsPlaceholder (p n : Str) : Prop :=
  ∃ ws1 ws2 : Str, p = '$' :: '{' :: (ws1 ++ n ++ ws2 ++ ['}']) ∧
    (∀ c ∈ ws1, isReSpace c = true) ∧ (∀ c ∈ ws2, isReSpace c = true) ∧
    n ≠ [] ∧ ∀ c ∈ n, isWordChar c = true

/-- The template `T` contains a placeholder occurrence whose identifier is `n`. -/
def Occurs (T n : Str) : Prop :=
  ∃ pre p post : Str, T = pre ++ p ++ post ∧ IsPlaceholder p n

/-- The single left-to-right pass of the specification over a template, as a relation
between the template and the text it produces: at a placeholder occurrence the value of
its identifier is written and the pass continues after the occurrence; any other character
is copied. -/
inductive Pass (M : GoMap) : Str → Str → Prop where
  | done : Pass M [] []
  | subst (p n v T out : Str) : IsPlaceholder p n → M.get n = some v → Pass M T out →
      Pass M (p ++ T) (v ++ out)
  | copy (c : Char) (T out : Str) :
      (¬ ∃ p n rest, IsPlaceholder p n ∧ c :: T = p ++ rest) → Pass M T out →
      Pass M (c :: T) (c :: out)

/-- The text of the error raised for a placeholder without a value. -/
def missingProperty (name : Str) : Str := "missing property: ".toList ++ name

/-! ## Properties files in the words of the specification -/

/-- The lines of a properties file, as the line reader delimits them. -/
def fileLines (content : Str) : List Str := (rawLines content).map dropCR

/-- A line that is empty or all whitespace. -/
def isBlank (line : Str) : Bool := line.all isSpace

/-- A comment line: its first character is `#`. -/
def isComment (line : Str) : Bool := line.head? == some '#'

/-- The trimmed text before the first `=` of a line. -/
def keyText (line : Str) : Str := trimSpace (line.takeWhile fun c => c != '=')

/-- The trimmed text after the first `=` of a line. -/
def valueText (line : Str) : Str := trimSpace ((line.dropWhile fun c => c != '=').drop 1)

/-- The value a list of lines defines for a key: the trimmed value of the last line,
neither blank nor a comment, whose trimmed key is the key. -/
def lastValue : List Str → Str → Option Str
  | [], _ => none
  | l :: ls, k =>
    match lastValue ls k with
    | some v => some v
    | none =>
      if isBlank l = false ∧ isComment l = false ∧ keyText l = k then some (valueText l)
      else none

/-! ## The inputs of the repository's tests and of the specification's examples -/

/-- The template of `TestProcessTemplate_Success`. -/
def tmplAB : Str := "A:${A}, B: ${B}".toList

/-- The properties of `TestProcessTemplate_Success`. -/
def propsAB : GoMap := ⟨[("A".toList, "1".toList), ("B".toList, "2".toList)]⟩

/-- The properties of `TestProcessTemplate_Success` without the entry for `B`. -/
def propsA : GoMap := ⟨[("A".toList, "1".toList)]⟩

/-- The properties file of `TestLoadProperties_Valid`. -/
def contentValid : Str := "# comment\nFOO=bar\nBAZ = qux\n\n".toList

/-- The properties file of `TestLoadProperties_InvalidLine`. -/
def contentInvalid : Str := "INVALID_LINE\n".toList

/-- A properties file that defines `A` twice. -/
def contentTwice : Str := "A=1\nA=2\n".toList

/-- A line `K=vvv...` whose value has `MaxScanTokenSize` bytes. -/
def longLine : Str := 'K' :: '=' :: List.replicate maxScanTokenSize 'v'

/-- A properties file with a line without `=` after a line longer than the line reader
accepts. -/
def contentLong : Str := "A=1\n".toList ++ (longLine ++ '\n' :: "INVALID\n".toList)

/-- A properties file with a comment line between two definitions. -/
def contentComment : Str := "A=1\n# B=0\nB=2\n".toList

/-- The name of the properties file in the examples. -/
def propsPath : Str := "props.txt".toList

/-- The template of `TestListParams`. -/
def tmplUser : Str := "Hello ${USER}, your ID is ${ ID } and again ${USER}".toList

/-- The template `${A}`. -/
def tmplA : Str := "${A}".toList

/-- A mapping with a value that itself has the form of a placeholder. -/
def propsNested : GoMap := ⟨[("A".toList, "${B}".toList), ("B".toList, "x".toList)]⟩

/-- A mapping with a value that names a placeholder without a value. -/
def propsDangling : GoMap := ⟨[("A".toList, "${C}".toList)]⟩

/-- The text `${`, `ws1`, `n`, `ws2`, `}`: an identifier in braces with separators. -/
def bracedForm (ws1 n ws2 : Str) : Str := '$' :: '\x7b' :: (ws1 ++ n ++ ws2 ++ ['\x7d'])

/-- The form `${`, newline, `A`, newline, `}`. -/
def tmplNewline : Str := ['$', '\x7b', '\n', 'A', '\n', '\x7d']

/-- A template made of malformed forms only: `${}`, `${ }`, `${A-B}`, `${A`, `$A`, `{A}`
and `$ {A}`, with a space between them. -/
def tmplMalformed : Str :=
  "$\x7b\x7d $\x7b \x7d $\x7bA-B\x7d $\x7bA $A \x7bA\x7d $ \x7bA\x7d".toList

/-- The properties of `TestProcessTemplate_Success` with two more keys that no placeholder
can name, the empty one and `a b`. -/
def propsExtra : GoMap :=
  ⟨[([], "z".toList), ("a b".toList, "y".toList), ("A".toList, "1".toList),
    ("B".toList, "2".toList)]⟩

/-- A properties file that defines `A` twice, with spaces around the second `=`. -/
def contentTwiceSpaced : Str := "A=1\nA = 2\n".toList

/-- An input of one line of `MaxScanTokenSize` bytes, with its newline. -/
def stdinLong : Str := List.replicate maxScanTokenSize 'v' ++ ['\n']

/-- A file system holding the listed files, by name. -/
def filesOf (files : List (Str × Str)) : FS := fun p =>
  match GoMap.lookup files p with
  | some content => .ok content
  | none => .error ("open ".toList ++ p ++ ": no such file or directory".toList)

/-- A world with the template of `TestProcessTemplate_Success` in `t.tmpl`, its properties
in `ab.txt`, the property `A` alone in `a.txt`, a properties file with an invalid line in
`bad.txt`, the given standard input, and no failure of the output. -/
def worldAB (stdin : Str) : World :=
  ⟨filesOf [("t.tmpl".toList, tmplAB), ("ab.txt".toList, "A=1\nB=2\n".toList),
      ("a.txt".toList, "A=1\n".toList), ("bad.txt".toList, contentInvalid)],
    stdin, none, fun _ => none, fun _ _ => none⟩

/-- The world `worldAB` with no standard input and an output device that is full: a write
to `o.txt` fails after three characters. -/
def worldFull : World :=
  ⟨(worldAB []).fs, [], none, fun _ => none,
    fun _ _ => some (3, "write o.txt: no space left on device".toList)⟩

/-- The flags `--in t.tmpl --properties <props>`, with `--interactive` or not, and
`--out <out>`. -/
def flagsRender (props : Str) (interactive : Bool) (out : Str) : Flags :=
  ⟨false, "t.tmpl".toList, props, interactive, out⟩

/-- The flags `--list-params --in t.tmpl --properties <props> --interactive --out o.txt`. -/
def flagsList (props : Str) : Flags :=
  ⟨true, "t.tmpl".toList, props, true, "o.txt".toList⟩

/-! ## Lemmas on the expression -/

theorem isWordChar_not_isReSpace {c : Char} (h : isWordChar c = true) : isReSpace c = false := by
  simp only [isWordChar, isReSpace, Bool.or_eq_true, Bool.and_eq_true, decide_eq_true_eq,
    beq_iff_eq, Bool.or_eq_false_iff, beq_eq_false_iff_ne] at *
  omega

theorem isReSpace_not_isWordChar {c : Char} (h : isReSpace c = true) : isWordChar c = false := by
  cases hw : isWordChar c
  · rfl
  · rw [isWordChar_not_isReSpace hw] at h
    cases h

theorem takeWhile_append_stop {p : Char → Bool} {l r : Str} (hl : ∀ c ∈ l, p c = true)
    (hr : ∀ c ∈ r.head?, p c = false) : (l ++ r).takeWhile p = l := by
  rw [List.takeWhile_append_of_pos hl]
  cases r with
  | nil => simp
  | cons a r =>
    have : p a = false := hr a (by simp)
    simp [this]

theorem dropWhile_append_stop {p : Char → Bool} {l r : Str} (hl : ∀ c ∈ l, p c = true)
    (hr : ∀ c ∈ r.head?, p c = false) : (l ++ r).dropWhile p = r := by
  rw [List.dropWhile_append_of_pos hl]
  cases r with
  | nil => simp
  | cons a r =>
    have : p a = false := hr a (by simp)
    simp [this]

/-- What a successful anchored match looks like. -/
theorem matchPrefix_some {s : Str} {m : Match} {rest : Str}
    (h : matchPrefix s = some (m, rest)) :
    IsPlaceholder m.whole m.group1 ∧ s = m.whole ++ rest := by
  unfold matchPrefix at h
  split at h
  · rename_i r
    simp only at h
    split at h
    · rename_i a name rest2 hname hr3
      simp only [Option.some.injEq, Prod.mk.injEq] at h
      obtain ⟨hm, hrest⟩ := h
      subst hm
      subst hrest
      refine ⟨⟨r.takeWhile isReSpace,
        ((r.dropWhile isReSpace).dropWhile isWordChar).takeWhile isReSpace, ?_, ?_, ?_, ?_, ?_⟩, ?_⟩
      · rfl
      · intro c hc
        exact List.mem_takeWhile_imp hc
      · intro c hc
        exact List.mem_takeWhile_imp hc
      · rw [hname]
        simp
      · intro c hc
        exact List.mem_takeWhile_imp hc
      · have e1 := List.takeWhile_append_dropWhile isReSpace r
        have e2 := List.takeWhile_append_dropWhile isWordChar (r.dropWhile isReSpace)
        have e3 := List.takeWhile_append_dropWhile isReSpace
          ((r.dropWhile isReSpace).dropWhile isWordChar)
        rw [hr3] at e3
        simp only [List.cons_append, List.append_assoc, List.nil_append, List.cons.injEq,
          true_and]
        rw [e3, e2, e1]
    · cases h
  · cases h

/-- The anchored expression matches every placeholder, whatever follows it. -/
theorem matchPrefix_placeholder {p n : Str} (h : IsPlaceholder p n) (rest : Str) :
    matchPrefix (p ++ rest) = some (⟨p, n⟩, rest) := by
  obtain ⟨ws1, ws2, hp, h1, h2, hn, hw⟩ := h
  subst hp
  obtain ⟨a, n', rfl⟩ := List.exists_cons_of_ne_nil hn
  have ha : isWordChar a = true := hw a (by simp)
  have t1 : (ws1 ++ (a :: n' ++ (ws2 ++ ('}' :: rest)))).takeWhile isReSpace = ws1 :=
    takeWhile_append_stop h1 (by simpa using isWordChar_not_isReSpace ha)
  have d1 : (ws1 ++ (a :: n' ++ (ws2 ++ ('}' :: rest)))).dropWhile isReSpace
      = a :: n' ++ (ws2 ++ ('}' :: rest)) :=
    dropWhile_append_stop h1 (by simpa using isWordChar_not_isReSpace ha)
  have hhead : ∀ c ∈ (ws2 ++ ('}' :: rest)).head?, isWordChar c = false := by
    intro c hc
    cases ws2 with
    | nil =>
      simp at hc
      subst hc
      decide
    | cons b ws2 =>
      simp at hc
      subst hc
      exact isReSpace_not_isWordChar (h2 _ (by simp))
  have t2 : (a :: n' ++ (ws2 ++ ('}' :: rest))).takeWhile isWordChar = a :: n' :=
    takeWhile_append_stop hw hhead
  have d2 : (a :: n' ++ (ws2 ++ ('}' :: rest))).dropWhile isWordChar = ws2 ++ ('}' :: rest) :=
    dropWhile_append_stop hw hhead
  have hbrace : ∀ c ∈ ('}' :: rest).head?, isReSpace c = false := by
    intro c hc
    simp at hc
    subst hc
    decide
  have t3 : (ws2 ++ ('}' :: rest)).takeWhile isReSpace = ws2 := takeWhile_append_stop h2 hbrace
  have d3 : (ws2 ++ ('}' :: rest)).dropWhile isReSpace = '}' :: rest :=
    dropWhile_append_stop h2 hbrace
  have e : ('$' :: '{' :: (ws1 ++ a :: n' ++ ws2 ++ ['}'])) ++ rest
      = '$' :: '{' :: (ws1 ++ (a :: n' ++ (ws2 ++ ('}' :: rest)))) := by simp
  rw [e]
  unfold matchPrefix
  simp only [t1, d1, t2, d2, t3, d3]

theorem matchPrefix_length {s : Str} {m : Match} {rest : Str}
    (h : matchPrefix s = some (m, rest)) : rest.length < s.length := by
  obtain ⟨⟨ws1, ws2, hp, -⟩, hs⟩ := matchPrefix_some h
  rw [hs, hp]
  simp
  omega

/-- Any sufficient bound on the number of steps gives the same pieces. -/
theorem piecesAux_fuel : ∀ (n k : Nat) (s : Str), s.length ≤ n → s.length ≤ k →
    piecesAux n s = piecesAux k s := by
  intro n
  induction n with
  | zero =>
    intro k s hn _
    have : s = [] := List.eq_nil_of_length_eq_zero (by omega)
    subst this
    cases k <;> rfl
  | succ n ih =>
    intro k s hn hk
    cases s with
    | nil => cases k <;> rfl
    | cons c cs =>
      cases k with
      | zero => simp at hk
      | succ k =>
        simp only [piecesAux]
        cases hm : matchPrefix (c :: cs) with
        | none =>
          simp only [List.length_cons] at hn hk
          simp only
          rw [ih k cs (by omega) (by omega)]
        | some r =>
          obtain ⟨m, rest⟩ := r
          have hl := matchPrefix_length hm
          simp only [List.length_cons] at hn hk hl
          simp only
          rw [ih k rest (by omega) (by omega)]

theorem pieces_nil : pieces [] = [] := rfl

theorem pieces_cons_none {c : Char} {cs : Str} (h : matchPrefix (c :: cs) = none) :
    pieces (c :: cs) = Piece.text c :: pieces cs := by
  simp only [pieces, List.length_cons, piecesAux, h]

theorem pieces_cons_some {c : Char} {cs : Str} {m : Match} {rest : Str}
    (h : matchPrefix (c :: cs) = some (m, rest)) :
    pieces (c :: cs) = Piece.hit m :: pieces rest := by
  have hl := matchPrefix_length h
  simp only [List.length_cons] at hl
  simp only [pieces, List.length_cons, piecesAux, h]
  rw [piecesAux_fuel cs.length rest.length rest (by omega) (by omega)]

theorem placeholder_eq_cons {p n : Str} (h : IsPlaceholder p n) :
    ∃ body : Str, p = '$' :: body ∧ '$' ∉ body := by
  obtain ⟨ws1, ws2, hp, h1, h2, -, hw⟩ := h
  refine ⟨'{' :: (ws1 ++ n ++ ws2 ++ ['}']), hp, ?_⟩
  intro hmem
  simp only [List.mem_cons, List.mem_append, List.mem_singleton, List.not_mem_nil, or_false]
    at hmem
  rcases hmem with h | ((h | h) | h) | h
  · exact absurd h (by decide)
  · exact absurd (h1 _ h) (by decide)
  · exact absurd (hw _ h) (by decide)
  · exact absurd (h2 _ h) (by decide)
  · exact absurd h (by decide)

theorem pieces_placeholder {p n : Str} (h : IsPlaceholder p n) (rest : Str) :
    pieces (p ++ rest) = Piece.hit ⟨p, n⟩ :: pieces rest := by
  obtain ⟨body, hb, -⟩ := placeholder_eq_cons h
  have hm := matchPrefix_placeholder h rest
  rw [hb] at hm ⊢
  exact pieces_cons_some hm

/-- A match that starts before a placeholder ends before it: matches hold one `$`. -/
theorem match_before_placeholder {m : Match} {rest pre p post : Str} {n : Str}
    (hm : IsPlaceholder m.whole m.group1) (hp : IsPlaceholder p n) (hne : pre ≠ [])
    (h : m.whole ++ rest = pre ++ (p ++ post)) :
    ∃ pre2 : Str, pre = m.whole ++ pre2 ∧ rest = pre2 ++ (p ++ post) := by
  obtain ⟨body, hb, hnot⟩ := placeholder_eq_cons hm
  obtain ⟨pbody, hpb, -⟩ := placeholder_eq_cons hp
  rcases List.append_eq_append_iff.mp h with ⟨a, h1, h2⟩ | ⟨c, h1, h2⟩
  · exact ⟨a, h1, h2⟩
  · cases c with
    | nil =>
      refine ⟨[], ?_, ?_⟩
      · simpa using h1.symm
      · simpa using h2.symm
    | cons x c =>
      exfalso
      rw [hpb] at h2
      simp only [List.cons_append, List.cons.injEq] at h2
      obtain ⟨hx, -⟩ := h2
      subst hx
      obtain ⟨y, pre1, rfl⟩ := List.exists_cons_of_ne_nil hne
      rw [hb] at h1
      simp only [List.cons_append, List.cons.injEq] at h1
      apply hnot
      rw [h1.2]
      simp

/-- The scan of a text around a placeholder: the placeholder is one of the matches, and
the texts before and after it are scanned as they are on their own. -/
theorem pieces_around_placeholder {p n : Str} (hp : IsPlaceholder p n) (post : Str) :
    ∀ (k : Nat) (pre : Str), pre.length ≤ k →
      pieces (pre ++ (p ++ post)) = pieces pre ++ Piece.hit ⟨p, n⟩ :: pieces post := by
  intro k
  induction k with
  | zero =>
    intro pre hk
    have : pre = [] := List.eq_nil_of_length_eq_zero (by omega)
    subst this
    simpa [pieces_nil] using pieces_placeholder hp post
  | succ k ih =>
    intro pre hk
    cases pre with
    | nil => simpa [pieces_nil] using pieces_placeholder hp post
    | cons c pre1 =>
      cases hm : matchPrefix (c :: pre1 ++ (p ++ post)) with
      | none =>
        have hm2 : matchPrefix (c :: pre1) = none := by
          cases hm2 : matchPrefix (c :: pre1) with
          | none => rfl
          | some r =>
            obtain ⟨m, rest⟩ := r
            obtain ⟨hpl, hs⟩ := matchPrefix_some hm2
            have := matchPrefix_placeholder hpl (rest ++ (p ++ post))
            rw [← List.append_assoc, ← hs, hm] at this
            cases this
        have e : c :: pre1 ++ (p ++ post) = c :: (pre1 ++ (p ++ post)) := rfl
        rw [e] at hm ⊢
        rw [pieces_cons_none hm, pieces_cons_none hm2, ih pre1 (by simpa using hk)]
        rfl
      | some r =>
        obtain ⟨m, rest⟩ := r
        obtain ⟨hpl, hs⟩ := matchPrefix_some hm
        obtain ⟨pre2, h1, h2⟩ :=
          match_before_placeholder hpl hp (List.cons_ne_nil c pre1) hs.symm
        have hm2 : matchPrefix (c :: pre1) = some (m, pre2) := by
          rw [h1]
          exact matchPrefix_placeholder hpl pre2
        have hlen : pre2.length ≤ k := by
          have := matchPrefix_length hm2
          simp only [List.length_cons] at this hk
          omega
        have e : c :: pre1 ++ (p ++ post) = c :: (pre1 ++ (p ++ post)) := rfl
        rw [e] at hm ⊢
        rw [pieces_cons_some hm, pieces_cons_some hm2, h2, ih pre2 hlen]
        rfl

/-! ## Matches and occurrences -/

theorem mem_findAll {T : Str} {m : Match} :
    m ∈ findAllStringSubmatch T ↔ Piece.hit m ∈ pieces T := by
  unfold findAllStringSubmatch
  rw [List.mem_filterMap]
  constructor
  · rintro ⟨p, hp, h⟩
    cases p with
    | text c => cases h
    | hit m2 =>
      simp only [Option.some.injEq] at h
      subst h
      exact hp
  · intro h
    exact ⟨Piece.hit m, h, rfl⟩

/-- Every match the scan reports is a placeholder of the text. -/
theorem hit_occurs : ∀ (k : Nat) (T : Str) (m : Match), T.length ≤ k → Piece.hit m ∈ pieces T →
    IsPlaceholder m.whole m.group1 ∧ ∃ pre post : Str, T = pre ++ m.whole ++ post := by
  intro k
  induction k with
  | zero =>
    intro T m hk h
    have : T = [] := List.eq_nil_of_length_eq_zero (by omega)
    subst this
    simp [pieces_nil] at h
  | succ k ih =>
    intro T m hk h
    cases T with
    | nil => simp [pieces_nil] at h
    | cons c cs =>
      cases hm : matchPrefix (c :: cs) with
      | none =>
        rw [pieces_cons_none hm] at h
        simp only [List.mem_cons, reduceCtorEq, false_or] at h
        obtain ⟨hpl, pre, post, e⟩ := ih cs m (by simpa using hk) h
        exact ⟨hpl, c :: pre, post, by rw [e]; rfl⟩
      | some r =>
        obtain ⟨m2, rest⟩ := r
        rw [pieces_cons_some hm] at h
        obtain ⟨hpl2, hs⟩ := matchPrefix_some hm
        simp only [List.mem_cons, Piece.hit.injEq] at h
        rcases h with h | h
        · subst h
          exact ⟨hpl2, [], rest, by simpa using hs⟩
        · have hl := matchPrefix_length hm
          simp only [List.length_cons] at hl hk
          obtain ⟨hpl, pre, post, e⟩ := ih rest m (by omega) h
          exact ⟨hpl, m2.whole ++ pre, post, by rw [hs, e]; simp⟩

/-- The scan reports exactly the placeholder occurrences of the text. -/
theorem occurs_iff_findAll {T n : Str} :
    Occurs T n ↔ ∃ m ∈ findAllStringSubmatch T, m.group1 = n := by
  constructor
  · rintro ⟨pre, p, post, hT, hp⟩
    refine ⟨⟨p, n⟩, ?_, rfl⟩
    rw [mem_findAll, hT, List.append_assoc, pieces_around_placeholder hp post pre.length pre
      (Nat.le_refl _)]
    simp
  · rintro ⟨m, hm, rfl⟩
    obtain ⟨hpl, pre, post, e⟩ := hit_occurs T.length T m (Nat.le_refl _) (mem_findAll.mp hm)
    exact ⟨pre, m.whole, post, e, hpl⟩

/-! ## The name set and the sort -/

theorem foldl_nameSet_mem (ms : List Match) : ∀ (acc : List Str) (n : Str),
    n ∈ ms.foldl (fun set m => if m.group1 ∈ set then set else set ++ [m.group1]) acc ↔
      n ∈ acc ∨ ∃ m ∈ ms, m.group1 = n := by
  induction ms with
  | nil => intro acc n; simp
  | cons m ms ih =>
    intro acc n
    rw [List.foldl_cons, ih]
    by_cases h : m.group1 ∈ acc
    · simp only [h, if_true, List.mem_cons, exists_eq_or_imp]
      constructor
      · rintro (h1 | h1)
        · exact Or.inl h1
        · exact Or.inr (Or.inr h1)
      · rintro (h1 | h1 | h1)
        · exact Or.inl h1
        · exact Or.inl (h1 ▸ h)
        · exact Or.inr h1
    · simp only [h, if_false, List.mem_append, List.mem_cons, List.not_mem_nil, or_false,
        exists_eq_or_imp]
      constructor
      · rintro ((h1 | h1) | h1)
        · exact Or.inl h1
        · exact Or.inr (Or.inl h1.symm)
        · exact Or.inr (Or.inr h1)
      · rintro (h1 | h1 | h1)
        · exact Or.inl (Or.inl h1)
        · exact Or.inl (Or.inr h1.symm)
        · exact Or.inr h1

theorem foldl_nameSet_nodup (ms : List Match) : ∀ (acc : List Str), acc.Nodup →
    (ms.foldl (fun set m => if m.group1 ∈ set then set else set ++ [m.group1]) acc).Nodup := by
  induction ms with
  | nil => intro acc h; simpa using h
  | cons m ms ih =>
    intro acc hacc
    rw [List.foldl_cons]
    apply ih
    by_cases h : m.group1 ∈ acc
    · simpa [h] using hacc
    · simp only [h, if_false]
      rw [List.nodup_append]
      refine ⟨hacc, List.nodup_singleton _, ?_⟩
      intro a ha hb
      simp only [List.mem_singleton] at hb
      subst hb
      exact h ha

theorem mem_nameSet {ms : List Match} {n : Str} :
    n ∈ nameSet ms ↔ ∃ m ∈ ms, m.group1 = n := by
  unfold nameSet
  rw [foldl_nameSet_mem]
  simp

theorem nodup_nameSet (ms : List Match) : (nameSet ms).Nodup :=
  foldl_nameSet_nodup ms [] List.nodup_nil

theorem strLt_irrefl (a : Str) : strLt a a = false := by
  induction a with
  | nil => rfl
  | cons x a ih => simp [strLt, ih]

theorem strLt_trans : ∀ (a b c : Str), strLt a b = true → strLt b c = true → strLt a c = true := by
  intro a
  induction a with
  | nil =>
    intro b c hab hbc
    cases b with
    | nil => simp [strLt] at hab
    | cons y b =>
      cases c with
      | nil => simp [strLt] at hbc
      | cons z c => simp [strLt]
  | cons x a ih =>
    intro b c hab hbc
    cases b with
    | nil => simp [strLt] at hab
    | cons y b =>
      cases c with
      | nil => simp [strLt] at hbc
      | cons z c =>
        simp only [strLt, Bool.or_eq_true, Bool.and_eq_true, decide_eq_true_eq] at hab hbc ⊢
        rcases hab with h1 | ⟨h1, h1t⟩
        · rcases hbc with h2 | ⟨h2, -⟩
          · exact Or.inl (by omega)
          · exact Or.inl (by omega)
        · rcases hbc with h2 | ⟨h2, h2t⟩
          · exact Or.inl (by omega)
          · exact Or.inr ⟨by omega, ih b c h1t h2t⟩

theorem strLt_connex : ∀ (a b : Str), strLt a b = false → strLt b a = false → a = b := by
  intro a
  induction a with
  | nil =>
    intro b hab _
    cases b with
    | nil => rfl
    | cons y b => simp [strLt] at hab
  | cons x a ih =>
    intro b hab hba
    cases b with
    | nil => simp [strLt] at hba
    | cons y b =>
      simp only [strLt, Bool.or_eq_false_iff, decide_eq_false_iff_not, Bool.and_eq_false_imp,
        decide_eq_true_eq] at hab hba
      have hxy : x.toNat = y.toNat := by omega
      have hx : x = y := Char.ext (UInt32.toNat.inj hxy)
      subst hx
      rw [ih b (hab.2 rfl) (hba.2 rfl)]

instance : IsTotal Str StrLe where
  total a b := by
    unfold StrLe
    cases h1 : strLt b a
    · exact Or.inl rfl
    · right
      cases h2 : strLt a b
      · rfl
      · have := strLt_trans a b a h2 h1
        rw [strLt_irrefl] at this
        cases this

instance : IsTrans Str StrLe where
  trans a b c hab hbc := by
    unfold StrLe at *
    cases h : strLt c a
    · rfl
    · exfalso
      cases h2 : strLt a b
      · have := strLt_connex a b h2 hab
        subst this
        rw [h] at hbc
        cases hbc
      · have := strLt_trans c a b h h2
        rw [this] at hbc
        cases hbc

theorem mem_listParams {T n : Str} :
    n ∈ listParams T ↔ ∃ m ∈ findAllStringSubmatch T, m.group1 = n := by
  unfold listParams sortStrings
  simp only
  rw [(List.perm_insertionSort StrLe _).mem_iff, mem_nameSet]

theorem listParams_pairwise (T : Str) :
    (listParams T).Pairwise (fun a b => strLt a b = true) := by
  have hs : (listParams T).Sorted StrLe := List.sorted_insertionSort StrLe _
  have hn : (listParams T).Nodup :=
    (List.perm_insertionSort StrLe _).nodup_iff.mpr (nodup_nameSet _)
  have hboth := List.Pairwise.and hs hn
  refine hboth.imp ?_
  intro a b hab
  obtain ⟨h1, h2⟩ := hab
  cases h : strLt a b
  · exact absurd (strLt_connex a b h h1) h2
  · rfl

/-! ## Rendering -/

theorem findStringSubmatch_placeholder {p n : Str} (h : IsPlaceholder p n) :
    findStringSubmatch p = some ⟨p, n⟩ := by
  obtain ⟨body, hb, -⟩ := placeholder_eq_cons h
  have hm := matchPrefix_placeholder h []
  rw [List.append_nil, hb] at hm
  rw [hb]
  simp only [findStringSubmatch, hm]

theorem replaceMatch_placeholder {p n : Str} (M : GoMap) (h : IsPlaceholder p n) :
    replaceMatch M p =
      match M.get n with
      | none => .error (missingProperty n)
      | some val => .ok val := by
  unfold replaceMatch
  rw [findStringSubmatch_placeholder h]
  rfl

theorem go_text (repl : Str → Except Str Str) (c : Char) (ps : List Piece) :
    replaceAllStringFunc.go repl (Piece.text c :: ps) =
      match replaceAllStringFunc.go repl ps with
      | .ok out => .ok (c :: out)
      | .error e => .error e := by
  simp only [replaceAllStringFunc.go]
  cases replaceAllStringFunc.go repl ps <;> rfl

theorem go_hit (repl : Str → Except Str Str) (m : Match) (ps : List Piece) :
    replaceAllStringFunc.go repl (Piece.hit m :: ps) =
      match repl m.whole with
      | .error e => .error e
      | .ok v =>
        match replaceAllStringFunc.go repl ps with
        | .ok out => .ok (v ++ out)
        | .error e => .error e := by
  simp only [replaceAllStringFunc.go]
  cases repl m.whole with
  | error e => rfl
  | ok v => cases replaceAllStringFunc.go repl ps <;> rfl

theorem go_append (repl : Str → Except Str Str) (qs : List Piece) : ∀ ps : List Piece,
    replaceAllStringFunc.go repl (ps ++ qs) =
      match replaceAllStringFunc.go repl ps with
      | .ok a =>
        match replaceAllStringFunc.go repl qs with
        | .ok b => .ok (a ++ b)
        | .error e => .error e
      | .error e => .error e := by
  intro ps
  induction ps with
  | nil =>
    rw [List.nil_append]
    simp only [replaceAllStringFunc.go]
    cases replaceAllStringFunc.go repl qs <;> rfl
  | cons x ps ih =>
    cases x with
    | text c =>
      rw [List.cons_append, go_text, go_text, ih]
      cases replaceAllStringFunc.go repl ps with
      | error e => rfl
      | ok a => cases replaceAllStringFunc.go repl qs <;> rfl
    | hit m =>
      rw [List.cons_append, go_hit, go_hit, ih]
      cases repl m.whole with
      | error e => rfl
      | ok v =>
        cases replaceAllStringFunc.go repl ps with
        | error e => rfl
        | ok a =>
          cases replaceAllStringFunc.go repl qs with
          | error e => rfl
          | ok b =>
            show Except.ok (v ++ (a ++ b)) = Except.ok (v ++ a ++ b)
            rw [List.append_assoc]

theorem replaceAll_nil (repl : Str → Except Str Str) : replaceAllStringFunc [] repl = .ok [] := rfl

theorem replaceAll_cons_none (repl : Str → Except Str Str) {c : Char} {cs : Str}
    (h : matchPrefix (c :: cs) = none) :
    replaceAllStringFunc (c :: cs) repl =
      match replaceAllStringFunc cs repl with
      | .ok out => .ok (c :: out)
      | .error e => .error e := by
  unfold replaceAllStringFunc
  rw [pieces_cons_none h, go_text]

theorem replaceAll_cons_some (M : GoMap) {c : Char} {cs : Str} {m : Match} {rest : Str}
    (h : matchPrefix (c :: cs) = some (m, rest)) :
    replaceAllStringFunc (c :: cs) (replaceMatch M) =
      match M.get m.group1 with
      | none => .error (missingProperty m.group1)
      | some v =>
        match replaceAllStringFunc rest (replaceMatch M) with
        | .ok out => .ok (v ++ out)
        | .error e => .error e := by
  unfold replaceAllStringFunc
  rw [pieces_cons_some h, go_hit, replaceMatch_placeholder M (matchPrefix_some h).1]
  cases M.get m.group1 <;> rfl

theorem processTemplate_eq (T : Str) (M : GoMap) :
    processTemplate T M =
      match replaceAllStringFunc T (replaceMatch M) with
      | .ok out => .ok (out, none)
      | .error e => .error e := by
  unfold processTemplate
  cases replaceAllStringFunc T (replaceMatch M) <;> rfl

/-- The pass of the specification determines what the code returns. -/
theorem pass_replaceAll {M : GoMap} {T out : Str} (h : Pass M T out) :
    replaceAllStringFunc T (replaceMatch M) = .ok out := by
  induction h with
  | done => rfl
  | subst p n v T out hp hv _ ih =>
    obtain ⟨body, hb, -⟩ := placeholder_eq_cons hp
    have hm := matchPrefix_placeholder hp T
    rw [hb] at hm ⊢
    rw [List.cons_append] at hm ⊢
    rw [replaceAll_cons_some M hm]
    simp only [hv, ih]
  | copy c T out hno _ ih =>
    have hm : matchPrefix (c :: T) = none := by
      cases hm : matchPrefix (c :: T) with
      | none => rfl
      | some r =>
        obtain ⟨m, rest⟩ := r
        obtain ⟨hpl, hs⟩ := matchPrefix_some hm
        exact absurd ⟨m.whole, m.group1, rest, hpl, hs⟩ hno
    rw [replaceAll_cons_none _ hm, ih]

theorem occurs_cons {c : Char} {T n : Str} (h : Occurs T n) : Occurs (c :: T) n := by
  obtain ⟨pre, p, post, hT, hp⟩ := h
  exact ⟨c :: pre, p, post, by rw [hT]; rfl, hp⟩

theorem occurs_append_left {A T n : Str} (h : Occurs T n) : Occurs (A ++ T) n := by
  obtain ⟨pre, p, post, hT, hp⟩ := h
  exact ⟨A ++ pre, p, post, by rw [hT]; simp, hp⟩

theorem occurs_append_right {A T n : Str} (h : Occurs T n) : Occurs (T ++ A) n := by
  obtain ⟨pre, p, post, hT, hp⟩ := h
  exact ⟨pre, p, post ++ A, by rw [hT]; simp, hp⟩

/-- When every placeholder has a value the pass of the specification goes through. -/
theorem covered_pass (M : GoMap) : ∀ (k : Nat) (T : Str), T.length ≤ k →
    (∀ n, Occurs T n → M.get n ≠ none) → ∃ out, Pass M T out := by
  intro k
  induction k with
  | zero =>
    intro T hk _
    have : T = [] := List.eq_nil_of_length_eq_zero (by omega)
    subst this
    exact ⟨[], Pass.done⟩
  | succ k ih =>
    intro T hk hcov
    cases T with
    | nil => exact ⟨[], Pass.done⟩
    | cons c cs =>
      cases hm : matchPrefix (c :: cs) with
      | none =>
        obtain ⟨out, hout⟩ := ih cs (by simpa using hk) (fun n hn => hcov n (occurs_cons hn))
        refine ⟨c :: out, Pass.copy c cs out ?_ hout⟩
        rintro ⟨p, n, rest, hp, e⟩
        rw [e, matchPrefix_placeholder hp rest] at hm
        cases hm
      | some r =>
        obtain ⟨m, rest⟩ := r
        obtain ⟨hpl, hs⟩ := matchPrefix_some hm
        have hl := matchPrefix_length hm
        simp only [List.length_cons] at hl hk
        obtain ⟨out, hout⟩ := ih rest (by omega) (fun n hn => by
          apply hcov n
          rw [hs]
          exact occurs_append_left hn)
        have hocc : Occurs (c :: cs) m.group1 := ⟨[], m.whole, rest, by simpa using hs, hpl⟩
        cases hv : M.get m.group1 with
        | none => exact absurd hv (hcov _ hocc)
        | some v =>
          rw [hs]
          exact ⟨v ++ out, Pass.subst m.whole m.group1 v rest out hpl hv hout⟩

theorem covered_replaceAll (M : GoMap) (T : Str) (hcov : ∀ n, Occurs T n → M.get n ≠ none) :
    ∃ out, replaceAllStringFunc T (replaceMatch M) = .ok out ∧ Pass M T out := by
  obtain ⟨out, hout⟩ := covered_pass M T.length T (Nat.le_refl _) hcov
  exact ⟨out, pass_replaceAll hout, hout⟩

theorem matchPrefix_append_none {s t : Str} (h : matchPrefix (s ++ t) = none) :
    matchPrefix s = none := by
  cases hm : matchPrefix s with
  | none => rfl
  | some r =>
    obtain ⟨m, rest⟩ := r
    obtain ⟨hpl, hs⟩ := matchPrefix_some hm
    have := matchPrefix_placeholder hpl (rest ++ t)
    rw [← List.append_assoc, ← hs, h] at this
    cases this

theorem findAll_cons_none {c : Char} {cs : Str} (h : matchPrefix (c :: cs) = none) :
    findAllStringSubmatch (c :: cs) = findAllStringSubmatch cs := by
  unfold findAllStringSubmatch
  rw [pieces_cons_none h]
  rfl

theorem findAll_cons_some {c : Char} {cs : Str} {m : Match} {rest : Str}
    (h : matchPrefix (c :: cs) = some (m, rest)) :
    findAllStringSubmatch (c :: cs) = m :: findAllStringSubmatch rest := by
  unfold findAllStringSubmatch
  rw [pieces_cons_some h]
  rfl

theorem not_occurs_nil (n : Str) : ¬ Occurs [] n := by
  intro h
  obtain ⟨m, hm, -⟩ := occurs_iff_findAll.mp h
  simp [findAllStringSubmatch, pieces_nil] at hm

/-- The leftmost placeholder occurrence without a value. -/
theorem first_missing (M : GoMap) : ∀ (k : Nat) (T : Str), T.length ≤ k →
    (∃ n, Occurs T n ∧ M.get n = none) →
    ∃ pre p n post : Str, T = pre ++ p ++ post ∧ IsPlaceholder p n ∧ M.get n = none ∧
      ∀ n2, Occurs pre n2 → M.get n2 ≠ none := by
  intro k
  induction k with
  | zero =>
    intro T hk h
    have : T = [] := List.eq_nil_of_length_eq_zero (by omega)
    subst this
    obtain ⟨n, hn, -⟩ := h
    exact absurd hn (not_occurs_nil n)
  | succ k ih =>
    intro T hk h
    cases T with
    | nil =>
      obtain ⟨n, hn, -⟩ := h
      exact absurd hn (not_occurs_nil n)
    | cons c cs =>
      obtain ⟨n, hn, hmiss⟩ := h
      obtain ⟨m0, hm0, hm0n⟩ := occurs_iff_findAll.mp hn
      cases hm : matchPrefix (c :: cs) with
      | none =>
        rw [findAll_cons_none hm] at hm0
        obtain ⟨pre, p, n1, post, e, hp, hmiss1, hpre⟩ :=
          ih cs (by simpa using hk) ⟨n, occurs_iff_findAll.mpr ⟨m0, hm0, hm0n⟩, hmiss⟩
        refine ⟨c :: pre, p, n1, post, by rw [e]; rfl, hp, hmiss1, ?_⟩
        intro n2 hn2
        obtain ⟨m2, hm2, hm2n⟩ := occurs_iff_findAll.mp hn2
        have hnone : matchPrefix (c :: pre) = none := by
          apply matchPrefix_append_none (t := p ++ post)
          rw [e] at hm
          simpa using hm
        rw [findAll_cons_none hnone] at hm2
        exact hpre n2 (occurs_iff_findAll.mpr ⟨m2, hm2, hm2n⟩)
      | some r =>
        obtain ⟨m, rest⟩ := r
        obtain ⟨hpl, hs⟩ := matchPrefix_some hm
        cases hv : M.get m.group1 with
        | none =>
          exact ⟨[], m.whole, m.group1, rest, by simpa using hs, hpl, hv,
            fun n2 hn2 => absurd hn2 (not_occurs_nil n2)⟩
        | some v =>
          rw [findAll_cons_some hm] at hm0
          have hm0rest : m0 ∈ findAllStringSubmatch rest := by
            rcases List.mem_cons.mp hm0 with h1 | h1
            · subst h1
              rw [hm0n, hmiss] at hv
              cases hv
            · exact h1
          have hl := matchPrefix_length hm
          simp only [List.length_cons] at hl hk
          obtain ⟨pre, p, n1, post, e, hp, hmiss1, hpre⟩ :=
            ih rest (by omega) ⟨n, occurs_iff_findAll.mpr ⟨m0, hm0rest, hm0n⟩, hmiss⟩
          refine ⟨m.whole ++ pre, p, n1, post, by rw [hs, e]; simp, hp, hmiss1, ?_⟩
          intro n2 hn2
          obtain ⟨m2, hm2, hm2n⟩ := occurs_iff_findAll.mp hn2
          obtain ⟨body, hb, -⟩ := placeholder_eq_cons hpl
          have hmp := matchPrefix_placeholder hpl pre
          rw [hb] at hmp hm2
          rw [List.cons_append] at hmp hm2
          rw [findAll_cons_some hmp] at hm2
          rcases List.mem_cons.mp hm2 with h1 | h1
          · subst h1
            rw [← hm2n, hv]
            exact Option.some_ne_none v
          · exact hpre n2 (occurs_iff_findAll.mpr ⟨m2, h1, hm2n⟩)

/-- Rendering stops at a placeholder without a value when all before it have one. -/
theorem replaceAll_stop (M : GoMap) {pre p n : Str} (post : Str)
    (hpre : ∀ n2, Occurs pre n2 → M.get n2 ≠ none) (hp : IsPlaceholder p n)
    (hmiss : M.get n = none) :
    replaceAllStringFunc (pre ++ p ++ post) (replaceMatch M) = .error (missingProperty n) := by
  obtain ⟨a, ha, -⟩ := covered_replaceAll M pre hpre
  unfold replaceAllStringFunc at ha ⊢
  rw [List.append_assoc, pieces_around_placeholder hp post pre.length pre (Nat.le_refl _),
    go_append, ha, go_hit, replaceMatch_placeholder M hp, hmiss]

/-- Rendering around a placeholder with a value. -/
theorem replaceAll_around (M : GoMap) {pre p n v post a b : Str} (hp : IsPlaceholder p n)
    (hv : M.get n = some v) (ha : replaceAllStringFunc pre (replaceMatch M) = .ok a)
    (hb : replaceAllStringFunc post (replaceMatch M) = .ok b) :
    replaceAllStringFunc (pre ++ p ++ post) (replaceMatch M) = .ok (a ++ v ++ b) := by
  unfold replaceAllStringFunc at ha hb ⊢
  rw [List.append_assoc, pieces_around_placeholder hp post pre.length pre (Nat.le_refl _),
    go_append, ha, go_hit, replaceMatch_placeholder M hp, hv, hb]
  simp

theorem processTemplate_ok {T : Str} {M : GoMap} {out : Str}
    (h : replaceAllStringFunc T (replaceMatch M) = .ok out) :
    processTemplate T M = .ok (out, none) := by
  rw [processTemplate_eq, h]

theorem processTemplate_error {T : Str} {M : GoMap} {e : Str}
    (h : replaceAllStringFunc T (replaceMatch M) = .error e) :
    processTemplate T M = .error e := by
  rw [processTemplate_eq, h]

theorem occurs_iff_mem_listParams {T n : Str} : Occurs T n ↔ n ∈ listParams T := by
  rw [mem_listParams, occurs_iff_findAll]

theorem listParams_nodup (T : Str) : (listParams T).Nodup := by
  refine (listParams_pairwise T).imp ?_
  intro a b hab heq
  subst heq
  rw [strLt_irrefl] at hab
  cases hab

theorem nodup_filter_eq_length (n : Str) : ∀ l : List Str, l.Nodup →
    (l.filter (fun x => decide (x = n))).length ≤ 1 := by
  intro l
  induction l with
  | nil => intro _; simp
  | cons a l ih =>
    intro h
    obtain ⟨ha, hl⟩ := List.nodup_cons.mp h
    by_cases e : a = n
    · subst e
      have : l.filter (fun x => decide (x = a)) = [] := by
        rw [List.filter_eq_nil_iff]
        intro x hx
        simp only [decide_eq_true_eq]
        intro hxa
        subst hxa
        exact ha hx
      simp [this]
    · simpa [e] using ih hl

/-- A placeholder that starts before another one lies before it. -/
theorem occurs_before {pre p n post pre2 p2 n2 post2 : Str} (hp2 : IsPlaceholder p2 n2)
    (hp : IsPlaceholder p n) (h : pre ++ p ++ post = pre2 ++ p2 ++ post2)
    (hlt : pre2.length < pre.length) : Occurs pre n2 := by
  rw [List.append_assoc, List.append_assoc] at h
  rcases List.append_eq_append_iff.mp h with ⟨a, h1, -⟩ | ⟨c, h1, h2⟩
  · rw [h1, List.length_append] at hlt
    omega
  · have hne : c ≠ [] := by
      intro hc
      rw [hc, List.append_nil] at h1
      rw [h1] at hlt
      omega
    have h3 : (Match.mk p2 n2).whole ++ post2 = c ++ (p ++ post) := h2
    obtain ⟨x, hx, -⟩ := match_before_placeholder (m := ⟨p2, n2⟩) hp2 hp hne h3
    exact ⟨pre2, p2, x, by rw [h1, hx]; simp, hp2⟩

/-! ## The claims on `processTemplate` and `listParams` -/

/-- C1: when the mapping has a value for the identifier of every placeholder occurrence
of the template, `processTemplate` returns, with a nil error, the text of the single
left-to-right pass that writes the value at each placeholder occurrence and copies every
other character; that text is unique. -/
theorem processTemplate_single_pass (T : Str) (M : GoMap)
    (hcov : ∀ n, Occurs T n → M.get n ≠ none) :
    ∃ out, processTemplate T M = .ok (out, none) ∧ Pass M T out ∧
      ∀ o, Pass M T o → o = out := by
  obtain ⟨out, hout, hpass⟩ := covered_replaceAll M T hcov
  refine ⟨out, processTemplate_ok hout, hpass, ?_⟩
  intro o ho
  have := pass_replaceAll ho
  rw [hout] at this
  cases this
  rfl

/-- C1, at the input of `TestProcessTemplate_Success`: the result is `A:1, B: 2`. -/
theorem processTemplate_single_pass_witness :
    (∀ n, Occurs tmplAB n → propsAB.get n ≠ none) ∧
    processTemplate tmplAB propsAB = .ok ("A:1, B: 2".toList, none) ∧
    ∃ out, processTemplate tmplAB propsAB = .ok (out, none) ∧ Pass propsAB tmplAB out ∧
      ∀ o, Pass propsAB tmplAB o → o = out := by
  have hcov : ∀ n, Occurs tmplAB n → propsAB.get n ≠ none := by
    intro n hn
    rw [occurs_iff_mem_listParams] at hn
    have e : listParams tmplAB = ["A".toList, "B".toList] := by decide
    rw [e] at hn
    simp only [List.mem_cons, List.mem_singleton, List.not_mem_nil, or_false] at hn
    rcases hn with h | h <;> subst h <;> decide
  exact ⟨hcov, rfl, processTemplate_single_pass tmplAB propsAB hcov⟩

/-- C2: `processTemplate` succeeds exactly when every name of `listParams` is a key of
the mapping. -/
theorem processTemplate_ok_iff_listParams (T : Str) (M : GoMap) :
    (∃ out, processTemplate T M = .ok (out, none)) ↔ ∀ n ∈ listParams T, M.get n ≠ none := by
  constructor
  · rintro ⟨out, hout⟩ n hn hmiss
    obtain ⟨pre, p, n1, post, e, hp, hmiss1, hpre⟩ :=
      first_missing M T.length T (Nat.le_refl _) ⟨n, occurs_iff_mem_listParams.mpr hn, hmiss⟩
    have := processTemplate_error (replaceAll_stop M post hpre hp hmiss1)
    rw [← e, hout] at this
    cases this
  · intro h
    obtain ⟨out, hout, -⟩ :=
      covered_replaceAll M T (fun n hn => h n (occurs_iff_mem_listParams.mp hn))
    exact ⟨out, processTemplate_ok hout⟩

/-- C3: when some placeholder occurrence has an identifier without a value, the template
splits at the leftmost such occurrence `p`, with identifier `n` (every occurrence in the
text before it has a value, and no occurrence without a value starts before it), and
`processTemplate` ends with the error `missing property: n`, an outcome that carries no
text; the outcome is the same whatever text stands to the right of `p`. -/
theorem processTemplate_missing_leftmost (T : Str) (M : GoMap)
    (h : ∃ n, Occurs T n ∧ M.get n = none) :
    ∃ pre p n post : Str, T = pre ++ p ++ post ∧ IsPlaceholder p n ∧ M.get n = none ∧
      (∀ n2, Occurs pre n2 → M.get n2 ≠ none) ∧
      (∀ pre2 p2 n2 post2 : Str, T = pre2 ++ p2 ++ post2 → IsPlaceholder p2 n2 →
        M.get n2 = none → pre.length ≤ pre2.length) ∧
      processTemplate T M = .error ("missing property: ".toList ++ n) ∧
      ∀ post2 : Str, processTemplate (pre ++ p ++ post2) M
        = .error ("missing property: ".toList ++ n) := by
  obtain ⟨pre, p, n, post, e, hp, hmiss, hpre⟩ := first_missing M T.length T (Nat.le_refl _) h
  refine ⟨pre, p, n, post, e, hp, hmiss, hpre, ?_, ?_, ?_⟩
  · intro pre2 p2 n2 post2 e2 hp2 hmiss2
    rcases Nat.lt_or_ge pre2.length pre.length with hlt | hge
    · exact absurd hmiss2 (hpre n2 (occurs_before hp2 hp (e.symm.trans e2) hlt))
    · exact hge
  · rw [e]
    exact processTemplate_error (replaceAll_stop M post hpre hp hmiss)
  · intro post2
    exact processTemplate_error (replaceAll_stop M post2 hpre hp hmiss)

/-- C3, at the template of `TestProcessTemplate_Success` with no value for `B`: the
outcome is the error `missing property: B`. -/
theorem processTemplate_missing_leftmost_witness :
    (∃ n, Occurs tmplAB n ∧ propsA.get n = none) ∧
    processTemplate tmplAB propsA = .error "missing property: B".toList ∧
    ∃ pre p n post : Str, tmplAB = pre ++ p ++ post ∧ IsPlaceholder p n ∧ propsA.get n = none ∧
      (∀ n2, Occurs pre n2 → propsA.get n2 ≠ none) ∧
      (∀ pre2 p2 n2 post2 : Str, tmplAB = pre2 ++ p2 ++ post2 → IsPlaceholder p2 n2 →
        propsA.get n2 = none → pre.length ≤ pre2.length) ∧
      processTemplate tmplAB propsA = .error ("missing property: ".toList ++ n) ∧
      ∀ post2 : Str, processTemplate (pre ++ p ++ post2) propsA
        = .error ("missing property: ".toList ++ n) := by
  have h : ∃ n, Occurs tmplAB n ∧ propsA.get n = none :=
    ⟨"B".toList, occurs_iff_mem_listParams.mpr (by decide), by decide⟩
  exact ⟨h, rfl, processTemplate_missing_leftmost tmplAB propsA h⟩

/-- C4: the result of `listParams` is in strictly ascending lexicographic order, each
element less than the one after it (and less than every later one), so no name is in it
twice. -/
theorem listParams_strictly_ascending (T : Str) :
    (listParams T).Chain' (fun a b => strLt a b = true) ∧
    (listParams T).Pairwise (fun a b => strLt a b = true) ∧
    (listParams T).Nodup := by
  have hp := listParams_pairwise T
  exact ⟨hp.chain', hp, listParams_nodup T⟩

/-- C5: a name is in `listParams T` exactly when `T` has a placeholder occurrence with that
identifier (the identifier without the whitespace around it); the name is listed once
however many occurrences it has; and the template of `TestListParams` gives `ID`, `USER`. -/
theorem listParams_iff_occurs :
    (∀ (T n : Str), (n ∈ listParams T ↔ Occurs T n) ∧
      ((listParams T).filter (fun x => decide (x = n))).length ≤ 1) ∧
    listParams tmplUser = ["ID".toList, "USER".toList] := by
  refine ⟨?_, by decide⟩
  intro T n
  exact ⟨occurs_iff_mem_listParams.symm, nodup_filter_eq_length n _ (listParams_nodup T)⟩

/-- C6: a value is inserted as it is, whatever it contains.  For a template
`pre ++ p ++ post` with `p` a placeholder of identifier `n`, and a mapping that has a value
for every name of the template, `v` for `n`: the texts before and after `p` render on
their own, to `a` and `b`, and the template renders to `a ++ v ++ b`. -/
theorem processTemplate_value_verbatim (pre p n post v : Str) (M : GoMap)
    (hp : IsPlaceholder p n) (hv : M.get n = some v)
    (hcov : ∀ k ∈ listParams (pre ++ p ++ post), M.get k ≠ none) :
    ∃ a b : Str, processTemplate pre M = .ok (a, none) ∧ processTemplate post M = .ok (b, none) ∧
      processTemplate (pre ++ p ++ post) M = .ok (a ++ v ++ b, none) := by
  obtain ⟨a, ha, -⟩ := covered_replaceAll M pre (fun k hk => hcov k (by
    rw [← occurs_iff_mem_listParams, List.append_assoc]
    exact occurs_append_right hk))
  obtain ⟨b, hb, -⟩ := covered_replaceAll M post (fun k hk => hcov k (by
    rw [← occurs_iff_mem_listParams]
    exact occurs_append_left hk))
  exact ⟨a, b, processTemplate_ok ha, processTemplate_ok hb,
    processTemplate_ok (replaceAll_around M hp hv ha hb)⟩

theorem isPlaceholder_bare (n : Str) (hn : n ≠ []) (hw : ∀ c ∈ n, isWordChar c = true) :
    IsPlaceholder ('$' :: '\x7b' :: (n ++ ['\x7d'])) n :=
  ⟨[], [], by simp, by simp, by simp, hn, hw⟩

/-- C6, at the template `${A}`: with `A` mapped to the text `${B}` and `B` to `x` the
result is the text `${B}`, not `x`; with `A` mapped to `${C}` and no value for `C` the
result is `${C}`, not a failure. -/
theorem processTemplate_value_verbatim_witness :
    processTemplate tmplA propsNested = .ok ("${B}".toList, none) ∧
    processTemplate tmplA propsDangling = .ok ("${C}".toList, none) ∧
    (IsPlaceholder tmplA "A".toList ∧ propsNested.get "A".toList = some "${B}".toList ∧
      (∀ k ∈ listParams ([] ++ tmplA ++ []), propsNested.get k ≠ none)) ∧
    (∃ a b : Str, processTemplate [] propsNested = .ok (a, none) ∧
      processTemplate [] propsNested = .ok (b, none) ∧
      processTemplate ([] ++ tmplA ++ []) propsNested = .ok (a ++ "${B}".toList ++ b, none)) ∧
    (∃ a b : Str, processTemplate [] propsDangling = .ok (a, none) ∧
      processTemplate [] propsDangling = .ok (b, none) ∧
      processTemplate ([] ++ tmplA ++ []) propsDangling
        = .ok (a ++ "${C}".toList ++ b, none)) := by
  have hp : IsPlaceholder tmplA "A".toList :=
    isPlaceholder_bare "A".toList (by decide) (by decide)
  have hcov : ∀ k ∈ listParams ([] ++ tmplA ++ []), propsNested.get k ≠ none := by decide
  have hcov2 : ∀ k ∈ listParams ([] ++ tmplA ++ []), propsDangling.get k ≠ none := by decide
  exact ⟨rfl, rfl, ⟨hp, rfl, hcov⟩,
    processTemplate_value_verbatim [] tmplA "A".toList [] "${B}".toList propsNested hp rfl hcov,
    processTemplate_value_verbatim [] tmplA "A".toList [] "${C}".toList propsDangling hp rfl
      hcov2⟩

/-! ## Lemmas on maps and on the loading loop -/

theorem lookup_update (key val : Str) : ∀ (es : List (Str × Str)) (k : Str),
    GoMap.lookup (GoMap.update es key val) k = if key = k then some val else GoMap.lookup es k := by
  intro es
  induction es with
  | nil =>
    intro k
    simp [GoMap.update, GoMap.lookup]
  | cons e es ih =>
    intro k
    obtain ⟨a, b⟩ := e
    by_cases hak : a = key
    · subst hak
      simp only [GoMap.update, if_true, GoMap.lookup]
      by_cases h : a = k <;> simp [h]
    · simp only [GoMap.update, hak, if_false, GoMap.lookup, ih]
      by_cases h : a = k
      · subst h
        have : ¬ key = a := fun e => hak e.symm
        simp [this]
      · simp [h]

theorem get_set (M : GoMap) (key val k : Str) :
    (M.set key val).get k = if key = k then some val else M.get k :=
  lookup_update key val M.entries k

theorem trimSpace_eq_nil_iff (l : Str) : trimSpace l = [] ↔ isBlank l = true := by
  unfold trimSpace isBlank
  rw [List.reverse_eq_nil_iff, List.dropWhile_eq_nil_iff, List.all_eq_true]
  constructor
  · intro h
    by_contra hne
    have hd : l.dropWhile isSpace ≠ [] := by
      rw [Ne, List.dropWhile_eq_nil_iff]
      exact hne
    have hmem := List.head_mem hd
    have := h _ (List.mem_reverse.mpr hmem)
    have hnot := List.head_dropWhile_not isSpace l hd
    rw [this] at hnot
    cases hnot
  · intro h x hx
    have : l.dropWhile isSpace = [] := List.dropWhile_eq_nil_iff.mpr h
    rw [this] at hx
    simp at hx

theorem hasPrefix_hash (l : Str) : hasPrefix l "#".toList = isComment l := by
  cases l with
  | nil => rfl
  | cons c cs =>
    simp only [hasPrefix, isComment, String.toList, List.isPrefixOf, List.head?_cons,
      Bool.and_true]
    by_cases h : c = '#'
    · subst h
      rfl
    · have h1 : ('#' == c) = false := by
        rw [beq_eq_false_iff_ne]
        exact fun e => h e.symm
      have h2 : (some c == some '#') = false := by
        rw [beq_eq_false_iff_ne]
        intro e
        exact h (Option.some.inj e)
      rw [h1, h2]

theorem splitN2_of_mem {l : Str} (h : '=' ∈ l) :
    splitN2 l = [l.takeWhile (fun c => c != '='), (l.dropWhile fun c => c != '=').drop 1] := by
  unfold splitN2
  cases hd : l.dropWhile (fun c => c != '=') with
  | nil =>
    rw [List.dropWhile_eq_nil_iff] at hd
    have := hd _ h
    simp at this
  | cons x xs => rfl

theorem splitN2_of_not_mem {l : Str} (h : '=' ∉ l) : splitN2 l = [l] := by
  unfold splitN2
  have : l.dropWhile (fun c => c != '=') = [] := by
    rw [List.dropWhile_eq_nil_iff]
    intro x hx
    simp only [bne_iff_ne, ne_eq]
    intro e
    subst e
    exact h hx
  rw [this]

/-- One turn of the loop on a line that is blank or a comment. -/
theorem loadLoop_skip (scanErr : Option Str) (line : Str) (rest : List Str) (M : GoMap)
    (h : isBlank line = true ∨ isComment line = true) :
    loadLoop scanErr (line :: rest) M = loadLoop scanErr rest M := by
  have hc : (decide (trimSpace line = []) || hasPrefix line "#".toList) = true := by
    rw [hasPrefix_hash, Bool.or_eq_true, decide_eq_true_eq, trimSpace_eq_nil_iff]
    exact h
  simp only [loadLoop, hc, if_true]

/-- One turn of the loop on a line that defines a property. -/
theorem loadLoop_entry (scanErr : Option Str) (line : Str) (rest : List Str) (M : GoMap)
    (hb : isBlank line = false) (hcm : isComment line = false) (he : '=' ∈ line) :
    loadLoop scanErr (line :: rest) M
      = loadLoop scanErr rest (M.set (keyText line) (valueText line)) := by
  have hc : (decide (trimSpace line = []) || hasPrefix line "#".toList) = false := by
    rw [hasPrefix_hash, hcm, Bool.or_false, decide_eq_false_iff_not, trimSpace_eq_nil_iff, hb]
    simp
  simp only [loadLoop, hc, splitN2_of_mem he]
  rfl

/-- One turn of the loop on a line that is not blank, not a comment and has no `=`. -/
theorem loadLoop_invalid (scanErr : Option Str) (line : Str) (rest : List Str) (M : GoMap)
    (hb : isBlank line = false) (hcm : isComment line = false) (he : '=' ∉ line) :
    loadLoop scanErr (line :: rest) M
      = (none, some ("invalid property line: ".toList ++ line)) := by
  have hc : (decide (trimSpace line = []) || hasPrefix line "#".toList) = false := by
    rw [hasPrefix_hash, hcm, Bool.or_false, decide_eq_false_iff_not, trimSpace_eq_nil_iff, hb]
    simp
  simp only [loadLoop, hc, splitN2_of_not_mem he]
  rfl

theorem lastValue_cons_skip {l : Str} (ls : List Str) (k : Str)
    (h : isBlank l = true ∨ isComment l = true) : lastValue (l :: ls) k = lastValue ls k := by
  have hc : ¬ (isBlank l = false ∧ isComment l = false ∧ keyText l = k) := by
    rintro ⟨h1, h2, -⟩
    rcases h with h | h
    · rw [h] at h1
      cases h1
    · rw [h] at h2
      cases h2
  simp only [lastValue, hc, if_false]
  cases lastValue ls k <;> rfl

theorem lastValue_cons_entry {l : Str} (ls : List Str) (k : Str)
    (hb : isBlank l = false) (hcm : isComment l = false) :
    lastValue (l :: ls) k =
      match lastValue ls k with
      | some v => some v
      | none => if keyText l = k then some (valueText l) else none := by
  simp only [lastValue, hb, hcm, true_and]

/-- The loop over lines that all are blank, comments or definitions: it runs to the end,
and each key has the value of its last definition, or the one it had before the loop. -/
theorem loadLoop_all (scanErr : Option Str) : ∀ (lines : List Str) (M : GoMap),
    (∀ l ∈ lines, isBlank l = false → isComment l = false → '=' ∈ l) →
    ∃ M2 : GoMap, loadLoop scanErr lines M = (some M2, scanErr) ∧
      ∀ k, M2.get k = match lastValue lines k with
        | some v => some v
        | none => M.get k := by
  intro lines
  induction lines with
  | nil =>
    intro M _
    exact ⟨M, rfl, fun k => rfl⟩
  | cons l ls ih =>
    intro M h
    have hls : ∀ x ∈ ls, isBlank x = false → isComment x = false → '=' ∈ x :=
      fun x hx => h x (List.mem_cons_of_mem _ hx)
    by_cases hskip : isBlank l = true ∨ isComment l = true
    · obtain ⟨M2, h1, h2⟩ := ih M hls
      refine ⟨M2, by rw [loadLoop_skip scanErr l ls M hskip, h1], ?_⟩
      intro k
      rw [lastValue_cons_skip ls k hskip]
      exact h2 k
    · have hb : isBlank l = false := by
        cases hb : isBlank l
        · rfl
        · exact absurd (Or.inl hb) hskip
      have hcm : isComment l = false := by
        cases hcm : isComment l
        · rfl
        · exact absurd (Or.inr hcm) hskip
      have he := h l (List.mem_cons_self _ _) hb hcm
      obtain ⟨M2, h1, h2⟩ := ih (M.set (keyText l) (valueText l)) hls
      refine ⟨M2, by rw [loadLoop_entry scanErr l ls M hb hcm he, h1], ?_⟩
      intro k
      rw [lastValue_cons_entry ls k hb hcm, h2 k, get_set]
      cases lastValue ls k with
      | some v => rfl
      | none =>
        by_cases hk : keyText l = k
        · simp only [hk, if_true]
        · simp only [hk, if_false]

/-- The loop stops at the first line that is not blank, not a comment and has no `=`. -/
theorem loadLoop_first_invalid (scanErr : Option Str) (bad : Str) (after : List Str)
    (hb : isBlank bad = false) (hcm : isComment bad = false) (he : '=' ∉ bad) :
    ∀ (before : List Str) (M : GoMap),
    (∀ l ∈ before, isBlank l = true ∨ isComment l = true ∨ '=' ∈ l) →
    loadLoop scanErr (before ++ bad :: after) M
      = (none, some ("invalid property line: ".toList ++ bad)) := by
  intro before
  induction before with
  | nil =>
    intro M _
    exact loadLoop_invalid scanErr bad after M hb hcm he
  | cons l ls ih =>
    intro M h
    have hls : ∀ x ∈ ls, isBlank x = true ∨ isComment x = true ∨ '=' ∈ x :=
      fun x hx => h x (List.mem_cons_of_mem _ hx)
    rw [List.cons_append]
    by_cases hskip : isBlank l = true ∨ isComment l = true
    · rw [loadLoop_skip scanErr l _ M hskip]
      exact ih M hls
    · have hb2 : isBlank l = false := by
        cases hb2 : isBlank l
        · rfl
        · exact absurd (Or.inl hb2) hskip
      have hcm2 : isComment l = false := by
        cases hcm2 : isComment l
        · rfl
        · exact absurd (Or.inr hcm2) hskip
      have he2 : '=' ∈ l := by
        rcases h l (List.mem_cons_self _ _) with h1 | h1 | h1
        · exact absurd (Or.inl h1) hskip
        · exact absurd (Or.inr h1) hskip
        · exact h1
      rw [loadLoop_entry scanErr l _ M hb2 hcm2 he2]
      exact ih _ hls

theorem scanLines_fit {content : Str}
    (hfit : ∀ l ∈ rawLines content, utf8Len l < maxScanTokenSize) :
    scanLines content = (fileLines content, none) := by
  have : (rawLines content).takeWhile fits = rawLines content := by
    rw [List.takeWhile_eq_self_iff]
    intro x hx
    simpa [fits] using hfit x hx
  simp only [scanLines, deliver, this, Nat.lt_irrefl, if_false]
  rfl

theorem loadProperties_eq {fs : FS} {path content : Str} (hfs : fs path = .ok content) :
    loadProperties fs path = loadLoop (scanLines content).2 (scanLines content).1 GoMap.empty := by
  simp only [loadProperties, hfs]

theorem get_empty (k : Str) : GoMap.empty.get k = none := rfl

theorem rawLines_ne_nil_of_ne_nil : ∀ (s : Str), s ≠ [] → rawLines s ≠ [] := by
  intro s hs
  cases s with
  | nil => exact absurd rfl hs
  | cons c cs =>
    simp only [rawLines]
    split
    · simp
    · split <;> simp

/-- A text without newline, then a newline: one line. -/
theorem rawLines_line : ∀ (l rest : Str), '\n' ∉ l →
    rawLines (l ++ '\n' :: rest) = l :: rawLines rest := by
  intro l
  induction l with
  | nil =>
    intro rest _
    simp [rawLines]
  | cons c cs ih =>
    intro rest h
    have hc : c ≠ '\n' := fun e => h (by simp [e])
    have hcs : '\n' ∉ cs := fun e => h (List.mem_cons_of_mem _ e)
    rw [List.cons_append]
    simp only [rawLines, hc, if_false, ih rest hcs]

theorem utf8Len_replicate (n : Nat) : utf8Len (List.replicate n 'v') = n := by
  induction n with
  | zero => rfl
  | succ n ih =>
    have h1 : Char.utf8Size 'v' = 1 := by decide
    simp only [utf8Len, List.replicate_succ, List.map_cons, List.sum_cons, h1] at ih ⊢
    omega

theorem utf8Len_cons (c : Char) (l : Str) : utf8Len (c :: l) = c.utf8Size + utf8Len l := by
  simp [utf8Len]

/-- Scanning stops at a line that does not fit the buffer. -/
theorem scanLines_long (l : Str) (hnl : '\n' ∉ l) (hlen : maxScanTokenSize ≤ utf8Len l) :
    scanLines ("A=1".toList ++ '\n' :: (l ++ '\n' :: ("INVALID".toList ++ '\n' :: [])))
      = (["A=1".toList], some errTooLong) := by
  have hr : rawLines ("A=1".toList ++ '\n' :: (l ++ '\n' :: ("INVALID".toList ++ '\n' :: [])))
      = ["A=1".toList, l, "INVALID".toList] := by
    rw [rawLines_line _ _ (by decide), rawLines_line _ _ hnl, rawLines_line _ _ (by decide)]
    rfl
  have h1 : fits "A=1".toList = true := by decide
  have h2 : fits l = false := by
    simp only [fits, decide_eq_false_iff_not]
    omega
  have ht : List.takeWhile fits ["A=1".toList, l, "INVALID".toList] = ["A=1".toList] := by
    rw [List.takeWhile_cons, List.takeWhile_cons]
    simp only [h1, h2, if_true, Bool.false_eq_true, if_false]
  simp only [scanLines, deliver, hr, ht]
  rfl

/-! ## The claims on `loadProperties` -/

/-- C7: the claim as stated fails on a file that defines a key twice.  In the file with the
lines `A=1` and `A=2` every line has an `=` and fits the line reader, the load succeeds
with the single entry `A -> 2`, and so the mapping does not have, for each line, the entry
made of its trimmed key and value: the entry `A -> 1` of the first line is missing. -/
theorem loadProperties_each_line_counterexample :
    (∀ l ∈ rawLines contentTwice, utf8Len l < maxScanTokenSize) ∧
    (∀ l ∈ fileLines contentTwice, isBlank l = false → isComment l = false → '=' ∈ l) ∧
    loadProperties (oneFile propsPath contentTwice) propsPath
      = (some ⟨[("A".toList, "2".toList)]⟩, none) ∧
    ¬ (∀ l ∈ fileLines contentTwice, isBlank l = false → isComment l = false →
        GoMap.get ⟨[("A".toList, "2".toList)]⟩ (keyText l) = some (valueText l)) := by
  refine ⟨by decide, by decide, by decide, by decide⟩

/-- C7, amended: for a properties file in which every line fits the line reader and every
line that is neither blank nor a comment (first character `#`) has an `=`, `loadProperties`
succeeds, and the value of every key is the trimmed text after the first `=` of the last
such line whose trimmed text before the first `=` is the key; a key no such line carries
has no entry. -/
theorem loadProperties_last_definition (fs : FS) (path content : Str)
    (hfs : fs path = .ok content)
    (hfit : ∀ l ∈ rawLines content, utf8Len l < maxScanTokenSize)
    (hwf : ∀ l ∈ fileLines content, isBlank l = false → isComment l = false → '=' ∈ l) :
    ∃ M : GoMap, loadProperties fs path = (some M, none) ∧
      ∀ k, M.get k = lastValue (fileLines content) k := by
  rw [loadProperties_eq hfs, scanLines_fit hfit]
  obtain ⟨M, h1, h2⟩ := loadLoop_all none (fileLines content) GoMap.empty hwf
  refine ⟨M, h1, ?_⟩
  intro k
  rw [h2 k, get_empty]
  cases lastValue (fileLines content) k <;> rfl

/-- C7, amended, at the file of `TestLoadProperties_Valid`: the mapping is exactly
`FOO -> bar`, `BAZ -> qux`; and the line `A=b=c` gives `A -> b=c`. -/
theorem loadProperties_last_definition_witness :
    oneFile propsPath contentValid propsPath = .ok contentValid ∧
    (∀ l ∈ rawLines contentValid, utf8Len l < maxScanTokenSize) ∧
    (∀ l ∈ fileLines contentValid, isBlank l = false → isComment l = false → '=' ∈ l) ∧
    loadProperties (oneFile propsPath contentValid) propsPath
      = (some ⟨[("FOO".toList, "bar".toList), ("BAZ".toList, "qux".toList)]⟩, none) ∧
    loadProperties (oneFile propsPath "A=b=c".toList) propsPath
      = (some ⟨[("A".toList, "b=c".toList)]⟩, none) ∧
    ∃ M : GoMap, loadProperties (oneFile propsPath contentValid) propsPath = (some M, none) ∧
      ∀ k, M.get k = lastValue (fileLines contentValid) k :=
  ⟨rfl, by decide, by decide, by decide, by decide,
    loadProperties_last_definition (oneFile propsPath contentValid) propsPath contentValid rfl
      (by decide) (by decide)⟩

/-- C8: the claim as stated fails on a file with a line longer than the line reader
accepts.  The file has the lines `A=1`, `K=vvv...` (a value of 65536 bytes) and `INVALID`,
the last being its first line that is neither blank nor a comment and has no `=`; the load
ends with the line reader's error, not with `invalid property line: INVALID`, and returns
the mapping `A -> 1` built so far, not nil. -/
theorem loadProperties_invalid_line_counterexample :
    rawLines contentLong = ["A=1".toList, longLine, "INVALID".toList] ∧
    '=' ∈ "A=1".toList ∧ '=' ∈ longLine ∧
    isBlank "INVALID".toList = false ∧ isComment "INVALID".toList = false ∧
    '=' ∉ "INVALID".toList ∧
    loadProperties (oneFile propsPath contentLong) propsPath
      = (some ⟨[("A".toList, "1".toList)]⟩, some "bufio.Scanner: token too long".toList) := by
  have hnl : '\n' ∉ longLine := by
    simp only [longLine, List.mem_cons, List.mem_replicate, not_or, not_and]
    exact ⟨by decide, by decide, fun _ => by decide⟩
  have hlen : maxScanTokenSize ≤ utf8Len longLine := by
    simp only [longLine, utf8Len_cons, utf8Len_replicate]
    omega
  refine ⟨?_, by decide, ?_, by decide, by decide, by decide, ?_⟩
  · show rawLines ("A=1".toList ++ '\n' :: (longLine ++ '\n' :: ("INVALID".toList ++ '\n' :: [])))
      = _
    rw [rawLines_line _ _ (by decide), rawLines_line _ _ hnl, rawLines_line _ _ (by decide)]
    rfl
  · simp only [longLine, List.mem_cons, true_or, or_true]
  · have hs := scanLines_long longLine hnl hlen
    have hfs : oneFile propsPath contentLong propsPath = .ok contentLong := if_pos rfl
    rw [loadProperties_eq hfs]
    show loadLoop (scanLines ("A=1".toList ++ '\n' ::
        (longLine ++ '\n' :: ("INVALID".toList ++ '\n' :: [])))).2
      (scanLines ("A=1".toList ++ '\n' ::
        (longLine ++ '\n' :: ("INVALID".toList ++ '\n' :: [])))).1 GoMap.empty = _
    rw [hs]
    rfl

/-- C8, amended: when the lines the line reader delivers (those before any line of 65536
bytes or more) hold a line that is neither blank nor a comment (first character `#`) and
has no `=`, `loadProperties` returns the error `invalid property line: ` followed by the
text of the first such line, and a nil mapping. -/
theorem loadProperties_invalid_line (fs : FS) (path content bad : Str)
    (before after : List Str) (hfs : fs path = .ok content)
    (hl : (scanLines content).1 = before ++ bad :: after)
    (hbefore : ∀ l ∈ before, isBlank l = true ∨ isComment l = true ∨ '=' ∈ l)
    (hb : isBlank bad = false) (hcm : isComment bad = false) (he : '=' ∉ bad) :
    loadProperties fs path = (none, some ("invalid property line: ".toList ++ bad)) := by
  rw [loadProperties_eq hfs, hl]
  exact loadLoop_first_invalid _ bad after hb hcm he before GoMap.empty hbefore

/-- C8, amended, at the file of `TestLoadProperties_InvalidLine`: the file is rejected
with `invalid property line: INVALID_LINE`. -/
theorem loadProperties_invalid_line_witness :
    oneFile propsPath contentInvalid propsPath = .ok contentInvalid ∧
    (scanLines contentInvalid).1 = [] ++ "INVALID_LINE".toList :: [] ∧
    (∀ l ∈ ([] : List Str), isBlank l = true ∨ isComment l = true ∨ '=' ∈ l) ∧
    isBlank "INVALID_LINE".toList = false ∧ isComment "INVALID_LINE".toList = false ∧
    '=' ∉ "INVALID_LINE".toList ∧
    loadProperties (oneFile propsPath contentInvalid) propsPath
      = (none, some "invalid property line: INVALID_LINE".toList) :=
  ⟨rfl, by decide, by decide, by decide, by decide, by decide,
    loadProperties_invalid_line (oneFile propsPath contentInvalid) propsPath contentInvalid
      "INVALID_LINE".toList [] [] rfl (by decide) (by decide) (by decide) (by decide)
      (by decide)⟩

/-! ### Comment lines -/

theorem rawLines_single : ∀ (s : Str), s ≠ [] → '\n' ∉ s → rawLines s = [s] := by
  intro s
  induction s with
  | nil => intro h; exact absurd rfl h
  | cons c cs ih =>
    intro _ h
    have hc : c ≠ '\n' := fun e => h (by simp [e])
    have hcs : '\n' ∉ cs := fun e => h (List.mem_cons_of_mem _ e)
    cases cs with
    | nil => simp [rawLines, hc]
    | cons d ds =>
      simp only [rawLines, hc, if_false] at ih ⊢
      rw [ih (List.cons_ne_nil _ _) hcs]

theorem rawLines_append_newline (rest : Str) : ∀ (a : Str),
    rawLines (a ++ '\n' :: rest) = rawLines (a ++ ['\n']) ++ rawLines rest := by
  intro a
  induction a with
  | nil => simp [rawLines]
  | cons c cs ih =>
    rw [List.cons_append, List.cons_append]
    by_cases hc : c = '\n'
    · subst hc
      simp only [rawLines, if_true, ih, List.cons_append]
    · simp only [rawLines, hc, if_false, ih]
      have hne : rawLines (cs ++ ['\n']) ≠ [] := rawLines_ne_nil_of_ne_nil _ (by simp)
      obtain ⟨x, xs, hx⟩ := List.exists_cons_of_ne_nil hne
      rw [hx]
      rfl

/-- The lines of a text after complete lines are the lines of both. -/
theorem rawLines_append (pre rest : Str) (hpre : pre = [] ∨ pre.getLast? = some '\n') :
    rawLines (pre ++ rest) = rawLines pre ++ rawLines rest := by
  rcases hpre with h | h
  · subst h
    rfl
  · obtain ⟨a, ha⟩ : ∃ a, pre = a ++ ['\n'] := by
      rcases List.eq_nil_or_concat pre with h0 | ⟨a, b, hab⟩
      · subst h0
        cases h
      · subst hab
        simp at h
        subst h
        exact ⟨a, by simp⟩
    subst ha
    rw [List.append_assoc]
    exact rawLines_append_newline rest a

theorem isComment_dropCR (l : Str) : isComment (dropCR ('#' :: l)) = true := by
  unfold dropCR
  split
  · cases l with
    | nil =>
      rename_i h
      simp at h
    | cons x xs => rfl
  · rfl

theorem loadLoop_skip_middle (scanErr : Option Str) (c : Str) (B : List Str)
    (hc : isComment c = true) : ∀ (A : List Str) (M : GoMap),
    loadLoop scanErr (A ++ c :: B) M = loadLoop scanErr (A ++ B) M := by
  intro A
  induction A with
  | nil =>
    intro M
    exact loadLoop_skip scanErr c B M (Or.inr hc)
  | cons a A ih =>
    intro M
    simp only [List.cons_append, loadLoop]
    split
    · exact ih M
    · split
      · exact ih _
      · rfl

/-- A fitting comment line among the lines of the data changes nothing of the load. -/
theorem takeWhile_length_lt {p : Str → Bool} {P : List Str} (hP : ¬ ∀ x ∈ P, p x = true) :
    (P.takeWhile p).length < P.length := by
  have hle := List.IsPrefix.length_le (List.takeWhile_prefix p (l := P))
  rcases Nat.lt_or_ge (P.takeWhile p).length P.length with h | h
  · exact h
  · exfalso
    apply hP
    rw [← List.takeWhile_eq_self_iff]
    exact List.IsPrefix.eq_of_length (List.takeWhile_prefix _) (Nat.le_antisymm hle h)

/-- A fitting comment line among the lines of the data changes nothing of the load. -/
theorem load_deliver_comment (P Q : List Str) (l : Str)
    (hfit : utf8Len ('#' :: l) < maxScanTokenSize) (M : GoMap) :
    loadLoop (deliver (P ++ ('#' :: l) :: Q)).2 (deliver (P ++ ('#' :: l) :: Q)).1 M
      = loadLoop (deliver (P ++ Q)).2 (deliver (P ++ Q)).1 M := by
  have hf : fits ('#' :: l) = true := by simpa [fits] using hfit
  by_cases hP : ∀ x ∈ P, fits x = true
  · have t1 : (P ++ ('#' :: l) :: Q).takeWhile fits = P ++ ('#' :: l) :: Q.takeWhile fits := by
      rw [List.takeWhile_append_of_pos hP, List.takeWhile_cons]
      simp only [hf, if_true]
    have t2 : (P ++ Q).takeWhile fits = P ++ Q.takeWhile fits :=
      List.takeWhile_append_of_pos hP
    have e : (deliver (P ++ ('#' :: l) :: Q)).2 = (deliver (P ++ Q)).2 := by
      simp only [deliver, t1, t2, List.length_append, List.length_cons]
      congr 1
      apply propext
      constructor <;> intro h <;> omega
    rw [e]
    simp only [deliver, t1, t2, List.map_append, List.map_cons]
    exact loadLoop_skip_middle _ _ _ (isComment_dropCR l) _ M
  · have hlt := takeWhile_length_lt hP
    have t : ∀ X : List Str, (P ++ X).takeWhile fits = P.takeWhile fits := by
      intro X
      rw [List.takeWhile_append]
      have : ¬ (P.takeWhile fits).length = P.length := by omega
      simp only [this, if_false]
    have d : ∀ X : List Str, deliver (P ++ X)
        = ((P.takeWhile fits).map dropCR, some errTooLong) := by
      intro X
      have : (P.takeWhile fits).length < (P ++ X).length := by
        rw [List.length_append]
        omega
      simp only [deliver, t X, this, if_true]
    rw [d, d]

/-- C9: the claim as stated fails on lines with whitespace before the `#`.  The line
`  # note` is not skipped: it has no `=` and the load fails with a parse error; the line
made of a tab and `#K=V` is not skipped either: it adds the entry `#K -> V`. -/
theorem loadProperties_indented_comment_counterexample :
    loadProperties (oneFile propsPath "  # note".toList) propsPath
      = (none, some "invalid property line:   # note".toList) ∧
    loadProperties (oneFile propsPath "\t#K=V".toList) propsPath
      = (some ⟨[("#K".toList, "V".toList)]⟩, none) := by
  refine ⟨by decide, by decide⟩

/-- C9, amended: `loadProperties` skips every line whose first character is `#` (and which
fits the line reader).  Such a line, be it followed by a newline and more lines or be it
the unterminated last line, adds no entry and raises no error: the result of the load is
the one of the file without the line. -/
theorem loadProperties_skips_comment (path pre l post : Str)
    (hpre : pre = [] ∨ pre.getLast? = some '\n') (hl : '\n' ∉ l)
    (hfit : utf8Len ('#' :: l) < maxScanTokenSize) :
    loadProperties (oneFile path (pre ++ ('#' :: l ++ '\n' :: post))) path
      = loadProperties (oneFile path (pre ++ post)) path ∧
    loadProperties (oneFile path (pre ++ '#' :: l)) path
      = loadProperties (oneFile path pre) path := by
  have hfs : ∀ c : Str, oneFile path c path = .ok c := fun c => if_pos rfl
  have hl2 : '\n' ∉ '#' :: l := by
    intro h
    rcases List.mem_cons.mp h with h | h
    · exact absurd h (by decide)
    · exact hl h
  constructor
  · rw [loadProperties_eq (hfs _), loadProperties_eq (hfs _)]
    simp only [scanLines]
    rw [rawLines_append pre _ hpre, rawLines_append pre _ hpre, rawLines_line _ _ hl2]
    exact load_deliver_comment _ _ l hfit GoMap.empty
  · rw [loadProperties_eq (hfs _), loadProperties_eq (hfs _)]
    simp only [scanLines]
    rw [rawLines_append pre _ hpre, rawLines_single _ (List.cons_ne_nil _ _) hl2]
    have := load_deliver_comment (rawLines pre) [] l hfit GoMap.empty
    rw [List.append_nil] at this
    exact this

/-- C9, amended, at a file with the comment line `# B=0` between `A=1` and `B=2`: the
mapping is `A -> 1`, `B -> 2`, as without the comment. -/
theorem loadProperties_skips_comment_witness :
    ("A=1\n".toList = [] ∨ "A=1\n".toList.getLast? = some '\n') ∧
    '\n' ∉ " B=0".toList ∧ utf8Len ('#' :: " B=0".toList) < maxScanTokenSize ∧
    loadProperties (oneFile propsPath contentComment) propsPath
      = (some ⟨[("A".toList, "1".toList), ("B".toList, "2".toList)]⟩, none) ∧
    (loadProperties (oneFile propsPath ("A=1\n".toList ++ ('#' :: " B=0".toList ++
        '\n' :: "B=2\n".toList))) propsPath
      = loadProperties (oneFile propsPath ("A=1\n".toList ++ "B=2\n".toList)) propsPath ∧
    loadProperties (oneFile propsPath ("A=1\n".toList ++ '#' :: " B=0".toList)) propsPath
      = loadProperties (oneFile propsPath "A=1\n".toList) propsPath) :=
  ⟨by decide, by decide, by decide, by decide,
    loadProperties_skips_comment propsPath "A=1\n".toList " B=0".toList "B=2\n".toList
      (by decide) (by decide) (by decide)⟩

/-! ## The whitespace of a placeholder -/

theorem isReSpace_iff (c : Char) :
    isReSpace c = true ↔ (c = ' ' ∨ c = '\t' ∨ c = '\n' ∨ c = '\r' ∨ c = '\x0c') := by
  have key : ∀ d : Char, c.toNat = d.toNat ↔ c = d := fun d =>
    ⟨fun h => Char.ext (UInt32.toNat.inj h), fun h => by rw [h]⟩
  have e1 := key ' '
  have e2 := key '\t'
  have e3 := key '\n'
  have e4 := key '\r'
  have e5 := key '\x0c'
  have n1 : ' '.toNat = 32 := by decide
  have n2 : '\t'.toNat = 9 := by decide
  have n3 : '\n'.toNat = 10 := by decide
  have n4 : '\r'.toNat = 13 := by decide
  have n5 : '\x0c'.toNat = 12 := by decide
  rw [n1] at e1
  rw [n2] at e2
  rw [n3] at e3
  rw [n4] at e4
  rw [n5] at e5
  simp only [isReSpace, Bool.or_eq_true, beq_iff_eq]
  rw [← e1, ← e2, ← e3, ← e4, ← e5]
  constructor
  · rintro ((((h | h) | h) | h) | h)
    · exact Or.inr (Or.inl h)
    · exact Or.inr (Or.inr (Or.inl h))
    · exact Or.inr (Or.inr (Or.inr (Or.inr h)))
    · exact Or.inr (Or.inr (Or.inr (Or.inl h)))
    · exact Or.inl h
  · rintro (h | h | h | h | h)
    · exact Or.inr h
    · exact Or.inl (Or.inl (Or.inl (Or.inl h)))
    · exact Or.inl (Or.inl (Or.inl (Or.inr h)))
    · exact Or.inl (Or.inr h)
    · exact Or.inl (Or.inl (Or.inr h))

theorem matchPrefix_ne_dollar {c : Char} (cs : Str) (h : c ≠ '$') :
    matchPrefix (c :: cs) = none := by
  unfold matchPrefix
  split
  · rename_i heq
    simp only [List.cons.injEq] at heq
    exact absurd heq.1 h
  · rfl

theorem pieces_no_dollar : ∀ (s : Str), '$' ∉ s → pieces s = s.map Piece.text := by
  intro s
  induction s with
  | nil => intro _; rfl
  | cons c cs ih =>
    intro h
    have hc : c ≠ '$' := fun e => h (by simp [e])
    rw [pieces_cons_none (matchPrefix_ne_dollar cs hc),
      ih (fun e => h (List.mem_cons_of_mem _ e))]
    rfl

theorem go_map_text (repl : Str → Except Str Str) : ∀ (s : Str),
    replaceAllStringFunc.go repl (s.map Piece.text) = .ok s := by
  intro s
  induction s with
  | nil => rfl
  | cons c cs ih => rw [List.map_cons, go_text, ih]

theorem matchPrefix_none_name (r : Str)
    (h : (r.dropWhile isReSpace).takeWhile isWordChar = []) :
    matchPrefix ('$' :: '\x7b' :: r) = none := by
  simp only [matchPrefix, h]

theorem matchPrefix_none_close (r : Str)
    (h : ∀ rest, ((r.dropWhile isReSpace).dropWhile isWordChar).dropWhile isReSpace
      ≠ '\x7d' :: rest) :
    matchPrefix ('$' :: '\x7b' :: r) = none := by
  simp only [matchPrefix]
  split
  · rename_i heq
    exact absurd heq (h _)
  · rfl

/-- An identifier in braces with a separator that holds a character outside `\s` is not
matched (the separators being free of identifier characters, `$` and `}`). -/
theorem matchPrefix_bad_separator (ws1 n ws2 : Str) (hn : n ≠ [])
    (hw : ∀ c ∈ n, isWordChar c = true)
    (hsep : ∀ c ∈ ws1 ++ ws2, isWordChar c = false ∧ c ≠ '$' ∧ c ≠ '\x7d')
    (hbad : ∃ c ∈ ws1 ++ ws2, isReSpace c = false) :
    matchPrefix (bracedForm ws1 n ws2) = none := by
  unfold bracedForm
  have hA : ∀ c ∈ ws1.takeWhile isReSpace, isReSpace c = true :=
    fun c hc => List.mem_takeWhile_imp hc
  have e1 := List.takeWhile_append_dropWhile isReSpace ws1
  cases hB : ws1.dropWhile isReSpace with
  | cons b B =>
    have hbmem : b ∈ ws1 := by
      rw [← e1, hB]
      simp
    have hbs : isReSpace b = false := by
      have := List.head_dropWhile_not isReSpace ws1 (by rw [hB]; simp)
      simpa [hB] using this
    have hbw : isWordChar b = false := (hsep b (List.mem_append_left _ hbmem)).1
    apply matchPrefix_none_name
    have er : ws1 ++ n ++ ws2 ++ ['\x7d']
        = ws1.takeWhile isReSpace ++ (b :: (B ++ n ++ ws2 ++ ['\x7d'])) := by
      rw [hB] at e1
      nth_rewrite 1 [← e1]
      simp
    rw [er, dropWhile_append_stop hA (by simpa using hbs)]
    simp [hbw]
  | nil =>
    have hall1 : ∀ c ∈ ws1, isReSpace c = true := List.dropWhile_eq_nil_iff.mp hB
    obtain ⟨c, hc, hcs⟩ := hbad
    have hc2 : c ∈ ws2 := by
      rcases List.mem_append.mp hc with h | h
      · rw [hall1 c h] at hcs
        cases hcs
      · exact h
    have e2 := List.takeWhile_append_dropWhile isReSpace ws2
    have hA2 : ∀ c ∈ ws2.takeWhile isReSpace, isReSpace c = true :=
      fun c hc => List.mem_takeWhile_imp hc
    cases hB2 : ws2.dropWhile isReSpace with
    | nil =>
      have := List.dropWhile_eq_nil_iff.mp hB2 c hc2
      rw [this] at hcs
      cases hcs
    | cons b B =>
      have hbmem : b ∈ ws2 := by
        rw [← e2, hB2]
        simp
      have hbs : isReSpace b = false := by
        have := List.head_dropWhile_not isReSpace ws2 (by rw [hB2]; simp)
        simpa [hB2] using this
      have hbc : b ≠ '\x7d' := (hsep b (List.mem_append_right _ hbmem)).2.2
      obtain ⟨a, n2, hn2⟩ := List.exists_cons_of_ne_nil hn
      have ha : isWordChar a = true := hw a (by rw [hn2]; simp)
      have hhead2 : ∀ x ∈ ws2.head?, isWordChar x = false := by
        intro x hx
        have hx2 : x ∈ ws2 := List.mem_of_mem_head? hx
        exact (hsep x (List.mem_append_right _ hx2)).1
      apply matchPrefix_none_close
      intro rest
      have s1 : (ws1 ++ n ++ ws2 ++ ['\x7d']).dropWhile isReSpace = n ++ (ws2 ++ ['\x7d']) := by
        have : ws1 ++ n ++ ws2 ++ ['\x7d'] = ws1 ++ (n ++ (ws2 ++ ['\x7d'])) := by simp
        rw [this]
        apply dropWhile_append_stop hall1
        rw [hn2]
        simpa using isWordChar_not_isReSpace ha
      have s2 : (n ++ (ws2 ++ ['\x7d'])).dropWhile isWordChar = ws2 ++ ['\x7d'] := by
        apply dropWhile_append_stop hw
        intro x hx
        cases ws2 with
        | nil => cases hc2
        | cons y ys =>
          simp only [List.cons_append, List.head?_cons, Option.mem_def, Option.some.injEq]
            at hx
          subst hx
          exact hhead2 _ (by simp)
      have s3 : (ws2 ++ ['\x7d']).dropWhile isReSpace = b :: (B ++ ['\x7d']) := by
        have : ws2 ++ ['\x7d'] = ws2.takeWhile isReSpace ++ (b :: (B ++ ['\x7d'])) := by
          rw [hB2] at e2
          nth_rewrite 1 [← e2]
          simp
        rw [this]
        exact dropWhile_append_stop hA2 (by simpa using hbs)
      rw [s1, s2, s3]
      intro heq
      simp only [List.cons.injEq] at heq
      exact hbc heq.1

theorem findAll_eq_nil_of_text (s t : Str) (h : pieces s = t.map Piece.text) :
    findAllStringSubmatch s = [] := by
  unfold findAllStringSubmatch
  rw [h, List.filterMap_eq_nil_iff]
  intro p hp
  obtain ⟨c, -, rfl⟩ := List.mem_map.mp hp
  rfl

theorem listParams_of_findAll_nil {T : Str} (h : findAllStringSubmatch T = []) :
    listParams T = [] := by
  simp only [listParams, h]
  rfl

theorem listParams_of_findAll_single {T : Str} {m : Match} (h : findAllStringSubmatch T = [m]) :
    listParams T = [m.group1] := by
  simp only [listParams, h]
  rfl

theorem isPlaceholder_bracedForm (ws1 n ws2 : Str) (hn : n ≠ [])
    (hw : ∀ c ∈ n, isWordChar c = true) (h1 : ∀ c ∈ ws1, isReSpace c = true)
    (h2 : ∀ c ∈ ws2, isReSpace c = true) : IsPlaceholder (bracedForm ws1 n ws2) n :=
  ⟨ws1, ws2, rfl, h1, h2, hn, hw⟩

/-- The scan of a text that is one placeholder. -/
theorem pieces_of_placeholder {p n : Str} (hp : IsPlaceholder p n) :
    pieces p = [Piece.hit ⟨p, n⟩] := by
  have := pieces_placeholder hp []
  rw [List.append_nil, pieces_nil] at this
  exact this

/-- The scan of an identifier in braces with a separator outside `\s`: no match. -/
theorem pieces_bad_separator (ws1 n ws2 : Str) (hn : n ≠ [])
    (hw : ∀ c ∈ n, isWordChar c = true)
    (hsep : ∀ c ∈ ws1 ++ ws2, isWordChar c = false ∧ c ≠ '$' ∧ c ≠ '\x7d')
    (hbad : ∃ c ∈ ws1 ++ ws2, isReSpace c = false) :
    pieces (bracedForm ws1 n ws2) = (bracedForm ws1 n ws2).map Piece.text := by
  have hm := matchPrefix_bad_separator ws1 n ws2 hn hw hsep hbad
  unfold bracedForm at hm ⊢
  rw [pieces_cons_none hm, pieces_no_dollar]
  · rfl
  · intro hmem
    simp only [List.mem_cons, List.mem_append, List.mem_singleton, List.not_mem_nil, or_false]
      at hmem
    rcases hmem with h | ((h | h) | h) | h
    · exact absurd h (by decide)
    · exact (hsep _ (List.mem_append_left _ h)).2.1 rfl
    · exact absurd (hw _ h) (by decide)
    · exact (hsep _ (List.mem_append_right _ h)).2.1 rfl
    · exact absurd h (by decide)

/-- C10: the claim as stated fails on the form `${`, newline, `A`, newline, `}`: it is a
placeholder, `listParams` returns `A` for it and `processTemplate` writes the value of `A`
in its place and does not copy it through. -/
theorem placeholder_newline_counterexample :
    listParams tmplNewline = ["A".toList] ∧
    processTemplate tmplNewline propsA = .ok ("1".toList, none) ∧
    processTemplate tmplNewline propsA ≠ .ok (tmplNewline, none) := by
  refine ⟨by decide, rfl, ?_⟩
  intro h
  have e : processTemplate tmplNewline propsA = .ok ("1".toList, none) := rfl
  rw [e] at h
  exact absurd (congrArg Prod.fst (Except.ok.inj h)) (by decide)

/-- C10, amended: the whitespace accepted between the braces and the identifier is the
class `\s` of the expression: space, tab, newline, carriage return and form feed.  For an
identifier `n`, the form with separators made of these characters is a placeholder:
`listParams` returns `n` and `processTemplate` writes the value of `n` in its place.  A form
with a separator that holds any other character (the separators being free of identifier
characters, `$` and `}`) is not a placeholder: `listParams` returns nothing for it and
`processTemplate` copies it through unchanged whatever the mapping. -/
theorem placeholder_whitespace_class (ws1 n ws2 : Str) (hn : n ≠ [])
    (hw : ∀ c ∈ n, isWordChar c = true) :
    ((∀ c ∈ ws1 ++ ws2, c = ' ' ∨ c = '\t' ∨ c = '\n' ∨ c = '\r' ∨ c = '\x0c') →
      listParams (bracedForm ws1 n ws2) = [n] ∧
      ∀ (M : GoMap) (v : Str), M.get n = some v →
        processTemplate (bracedForm ws1 n ws2) M = .ok (v, none)) ∧
    ((∀ c ∈ ws1 ++ ws2, isWordChar c = false ∧ c ≠ '$' ∧ c ≠ '\x7d') →
      (∃ c ∈ ws1 ++ ws2, ¬ (c = ' ' ∨ c = '\t' ∨ c = '\n' ∨ c = '\r' ∨ c = '\x0c')) →
      listParams (bracedForm ws1 n ws2) = [] ∧
      ∀ M : GoMap, processTemplate (bracedForm ws1 n ws2) M
        = .ok (bracedForm ws1 n ws2, none)) := by
  constructor
  · intro hall
    have hp : IsPlaceholder (bracedForm ws1 n ws2) n :=
      isPlaceholder_bracedForm ws1 n ws2 hn hw
        (fun c hc => (isReSpace_iff c).mpr (hall c (List.mem_append_left _ hc)))
        (fun c hc => (isReSpace_iff c).mpr (hall c (List.mem_append_right _ hc)))
    have hpc := pieces_of_placeholder hp
    constructor
    · apply listParams_of_findAll_single (m := ⟨bracedForm ws1 n ws2, n⟩)
      simp only [findAllStringSubmatch, hpc]
      rfl
    · intro M v hv
      apply processTemplate_ok
      unfold replaceAllStringFunc
      rw [hpc, go_hit, replaceMatch_placeholder M hp, hv]
      simp [replaceAllStringFunc.go]
  · intro hsep hbad
    have hbad2 : ∃ c ∈ ws1 ++ ws2, isReSpace c = false := by
      obtain ⟨c, hc, hnot⟩ := hbad
      refine ⟨c, hc, ?_⟩
      cases h : isReSpace c
      · rfl
      · exact absurd ((isReSpace_iff c).mp h) hnot
    have hpc := pieces_bad_separator ws1 n ws2 hn hw hsep hbad2
    constructor
    · exact listParams_of_findAll_nil (findAll_eq_nil_of_text _ _ hpc)
    · intro M
      apply processTemplate_ok
      unfold replaceAllStringFunc
      rw [hpc, go_map_text]

/-- C10, amended, at the identifier `A`: between newlines it is a placeholder, replaced by
the value of `A`; between vertical tabs it is not, and is copied through. -/
theorem placeholder_whitespace_class_witness :
    ("A".toList ≠ [] ∧ ∀ c ∈ "A".toList, isWordChar c = true) ∧
    (∀ c ∈ ['\n'] ++ ['\n'], c = ' ' ∨ c = '\t' ∨ c = '\n' ∨ c = '\r' ∨ c = '\x0c') ∧
    (listParams (bracedForm ['\n'] "A".toList ['\n']) = ["A".toList] ∧
      ∀ (M : GoMap) (v : Str), M.get "A".toList = some v →
        processTemplate (bracedForm ['\n'] "A".toList ['\n']) M = .ok (v, none)) ∧
    (∀ c ∈ ['\x0b'] ++ ['\x0b'], isWordChar c = false ∧ c ≠ '$' ∧ c ≠ '\x7d') ∧
    (∃ c ∈ ['\x0b'] ++ ['\x0b'],
      ¬ (c = ' ' ∨ c = '\t' ∨ c = '\n' ∨ c = '\r' ∨ c = '\x0c')) ∧
    (listParams (bracedForm ['\x0b'] "A".toList ['\x0b']) = [] ∧
      ∀ M : GoMap, processTemplate (bracedForm ['\x0b'] "A".toList ['\x0b']) M
        = .ok (bracedForm ['\x0b'] "A".toList ['\x0b'], none)) := by
  have hn : "A".toList ≠ [] := by decide
  have hw : ∀ c ∈ "A".toList, isWordChar c = true := by decide
  have h1 : ∀ c ∈ ['\n'] ++ ['\n'],
      c = ' ' ∨ c = '\t' ∨ c = '\n' ∨ c = '\r' ∨ c = '\x0c' := by decide
  have h2 : ∀ c ∈ ['\x0b'] ++ ['\x0b'], isWordChar c = false ∧ c ≠ '$' ∧ c ≠ '\x7d' := by
    decide
  have h3 : ∃ c ∈ ['\x0b'] ++ ['\x0b'],
      ¬ (c = ' ' ∨ c = '\t' ∨ c = '\n' ∨ c = '\r' ∨ c = '\x0c') := by decide
  exact ⟨⟨hn, hw⟩, h1, (placeholder_whitespace_class ['\n'] "A".toList ['\n'] hn hw).1 h1,
    h2, h3, (placeholder_whitespace_class ['\x0b'] "A".toList ['\x0b'] hn hw).2 h2 h3⟩

/-! ## Templates without placeholders, mappings with other keys -/

/-- The scan of a text without placeholder occurrence: no match. -/
theorem pieces_no_occurs : ∀ (T : Str), (∀ n, ¬ Occurs T n) → pieces T = T.map Piece.text := by
  intro T
  induction T with
  | nil => intro _; rfl
  | cons c cs ih =>
    intro h
    cases hm : matchPrefix (c :: cs) with
    | some r =>
      obtain ⟨m, rest⟩ := r
      obtain ⟨hpl, hs⟩ := matchPrefix_some hm
      exact absurd ⟨[], m.whole, rest, by simpa using hs, hpl⟩ (h m.group1)
    | none =>
      rw [pieces_cons_none hm, ih (fun n hn => h n (occurs_cons hn))]
      rfl

/-- C11: a template without a well-formed placeholder is plain text: `listParams` returns
nothing for it and `processTemplate` returns it unchanged, with a nil error, whatever the
mapping. -/
theorem malformed_plain_text (T : Str) (h : ∀ n, ¬ Occurs T n) :
    listParams T = [] ∧ ∀ M : GoMap, processTemplate T M = .ok (T, none) := by
  have hpc := pieces_no_occurs T h
  constructor
  · exact listParams_of_findAll_nil (findAll_eq_nil_of_text _ _ hpc)
  · intro M
    apply processTemplate_ok
    unfold replaceAllStringFunc
    rw [hpc, go_map_text]

/-- C11, at a template made of the malformed forms `${}`, `${ }`, `${A-B}`, `${A`, `$A`,
`{A}` and `$ {A}`: nothing is listed, and the text is returned unchanged with the empty
mapping and with a mapping that has `A`. -/
theorem malformed_plain_text_witness :
    (∀ n, ¬ Occurs tmplMalformed n) ∧
    processTemplate tmplMalformed GoMap.empty = .ok (tmplMalformed, none) ∧
    (listParams tmplMalformed = [] ∧
      ∀ M : GoMap, processTemplate tmplMalformed M = .ok (tmplMalformed, none)) := by
  have h : ∀ n, ¬ Occurs tmplMalformed n := by
    intro n hn
    rw [occurs_iff_mem_listParams] at hn
    have e : listParams tmplMalformed = [] := by decide
    rw [e] at hn
    cases hn
  exact ⟨h, rfl, malformed_plain_text tmplMalformed h⟩

theorem go_congr (r1 r2 : Str → Except Str Str) : ∀ (ps : List Piece),
    (∀ m, Piece.hit m ∈ ps → r1 m.whole = r2 m.whole) →
    replaceAllStringFunc.go r1 ps = replaceAllStringFunc.go r2 ps := by
  intro ps
  induction ps with
  | nil => intro _; rfl
  | cons x ps ih =>
    intro h
    have hps := ih (fun m hm => h m (List.mem_cons_of_mem _ hm))
    cases x with
    | text c => rw [go_text, go_text, hps]
    | hit m => rw [go_hit, go_hit, hps, h m (List.mem_cons_self _ _)]

/-- C18: two mappings that agree on every name of `listParams T` (the same presence, the
same value) give the same outcome of `processTemplate`, the same text or the same error;
keys that are not names of the template have no effect. -/
theorem processTemplate_agree (T : Str) (M M2 : GoMap)
    (h : ∀ n ∈ listParams T, M.get n = M2.get n) :
    processTemplate T M = processTemplate T M2 := by
  rw [processTemplate_eq, processTemplate_eq]
  have : replaceAllStringFunc T (replaceMatch M) = replaceAllStringFunc T (replaceMatch M2) := by
    unfold replaceAllStringFunc
    apply go_congr
    intro m hm
    obtain ⟨hpl, -⟩ := hit_occurs T.length T m (Nat.le_refl _) hm
    rw [replaceMatch_placeholder M hpl, replaceMatch_placeholder M2 hpl,
      h m.group1 (mem_listParams.mpr ⟨m, mem_findAll.mpr hm, rfl⟩)]
  rw [this]

/-- C18, at the template of `TestProcessTemplate_Success`: the mapping with the further
keys `a b` and the empty one renders as the mapping without them; and two mappings that
both lack `B` fail alike. -/
theorem processTemplate_agree_witness :
    (∀ n ∈ listParams tmplAB, propsAB.get n = propsExtra.get n) ∧
    processTemplate tmplAB propsAB = processTemplate tmplAB propsExtra ∧
    processTemplate tmplAB propsExtra = .ok ("A:1, B: 2".toList, none) ∧
    (∀ n ∈ listParams tmplAB, propsA.get n = (propsA.set [] "z".toList).get n) ∧
    processTemplate tmplAB propsA = processTemplate tmplAB (propsA.set [] "z".toList) :=
  ⟨by decide, processTemplate_agree tmplAB propsAB propsExtra (by decide), rfl, by decide,
    processTemplate_agree tmplAB propsA (propsA.set [] "z".toList) (by decide)⟩

/-! ## Repeated keys -/

theorem keys_update (key val : Str) : ∀ (es : List (Str × Str)),
    (GoMap.update es key val).map Prod.fst
      = if key ∈ es.map Prod.fst then es.map Prod.fst else es.map Prod.fst ++ [key] := by
  intro es
  induction es with
  | nil => simp [GoMap.update]
  | cons e es ih =>
    obtain ⟨a, b⟩ := e
    by_cases hak : a = key
    · subst hak
      simp [GoMap.update]
    · have hka : ¬ key = a := fun e => hak e.symm
      simp only [GoMap.update, hak, if_false, List.map_cons, ih, List.mem_cons, hka, false_or]
      by_cases hmem : key ∈ es.map Prod.fst
      · simp only [hmem, if_true]
      · simp only [hmem, if_false, List.cons_append]

theorem nodup_update (key val : Str) (es : List (Str × Str)) (h : (es.map Prod.fst).Nodup) :
    ((GoMap.update es key val).map Prod.fst).Nodup := by
  rw [keys_update]
  by_cases hmem : key ∈ es.map Prod.fst
  · simpa only [hmem, if_true] using h
  · simp only [hmem, if_false]
    rw [List.nodup_append]
    refine ⟨h, List.nodup_singleton _, ?_⟩
    intro a ha hb
    simp only [List.mem_singleton] at hb
    subst hb
    exact hmem ha

/-- The keys of the mapping the loop returns are distinct when they were at its start. -/
theorem loadLoop_nodup (scanErr : Option Str) : ∀ (lines : List Str) (M R : GoMap)
    (e : Option Str), loadLoop scanErr lines M = (some R, e) →
    (M.entries.map Prod.fst).Nodup → (R.entries.map Prod.fst).Nodup := by
  intro lines
  induction lines with
  | nil =>
    intro M R e h hM
    simp only [loadLoop, Prod.mk.injEq, Option.some.injEq] at h
    rw [← h.1]
    exact hM
  | cons l ls ih =>
    intro M R e h hM
    simp only [loadLoop] at h
    split at h
    · exact ih M R e h hM
    · split at h
      · exact ih _ R e h (nodup_update _ _ _ hM)
      · simp at h

/-- A loop that ends without an error has met no line without `=`, and the scanner has
ended without an error. -/
theorem loadLoop_accept (scanErr : Option Str) : ∀ (lines : List Str) (M : GoMap),
    (loadLoop scanErr lines M).2 = none →
    scanErr = none ∧ ∀ l ∈ lines, isBlank l = false → isComment l = false → '=' ∈ l := by
  intro lines
  induction lines with
  | nil =>
    intro M h
    exact ⟨h, fun l hl => absurd hl (List.not_mem_nil l)⟩
  | cons l ls ih =>
    intro M h
    by_cases hskip : isBlank l = true ∨ isComment l = true
    · rw [loadLoop_skip scanErr l ls M hskip] at h
      obtain ⟨h1, h2⟩ := ih M h
      refine ⟨h1, ?_⟩
      intro x hx hb hcm
      rcases List.mem_cons.mp hx with e | e
      · subst e
        rcases hskip with hs | hs
        · rw [hs] at hb
          cases hb
        · rw [hs] at hcm
          cases hcm
      · exact h2 x e hb hcm
    · have hb : isBlank l = false := by
        cases hb : isBlank l
        · rfl
        · exact absurd (Or.inl hb) hskip
      have hcm : isComment l = false := by
        cases hcm : isComment l
        · rfl
        · exact absurd (Or.inr hcm) hskip
      by_cases he : '=' ∈ l
      · rw [loadLoop_entry scanErr l ls M hb hcm he] at h
        obtain ⟨h1, h2⟩ := ih _ h
        refine ⟨h1, ?_⟩
        intro x hx hb2 hcm2
        rcases List.mem_cons.mp hx with e | e
        · subst e
          exact he
        · exact h2 x e hb2 hcm2
      · rw [loadLoop_invalid scanErr l ls M hb hcm he] at h
        cases h

/-- A scanner that ends without an error has delivered every line. -/
theorem deliver_accept (raw : List Str) (h : (deliver raw).2 = none) :
    deliver raw = (raw.map dropCR, none) := by
  have hall : ∀ x ∈ raw, fits x = true := by
    by_contra hne
    have hlt := takeWhile_length_lt hne
    simp only [deliver, hlt, if_true] at h
    cases h
  have ht : raw.takeWhile fits = raw := List.takeWhile_eq_self_iff.mpr hall
  simp only [deliver, ht, Nat.lt_irrefl, if_false]

/-- C19: in a properties file that `loadProperties` accepts (it returns a nil error), the
value of every key is the trimmed value of the last line, neither blank nor a comment,
whose trimmed key it is, whatever earlier lines define for that key; and no key is in the
mapping twice. -/
theorem loadProperties_last_wins (fs : FS) (path content : Str) (hfs : fs path = .ok content)
    (hacc : (loadProperties fs path).2 = none) :
    ∃ M : GoMap, loadProperties fs path = (some M, none) ∧
      (∀ k, M.get k = lastValue (fileLines content) k) ∧
      (M.entries.map Prod.fst).Nodup := by
  rw [loadProperties_eq hfs] at hacc ⊢
  obtain ⟨herr, hwf⟩ := loadLoop_accept _ _ _ hacc
  have hd : scanLines content = (fileLines content, none) := deliver_accept _ herr
  rw [hd] at hwf ⊢
  obtain ⟨M, h1, h2⟩ := loadLoop_all none (fileLines content) GoMap.empty hwf
  refine ⟨M, h1, ?_, ?_⟩
  · intro k
    rw [h2 k, get_empty]
    cases lastValue (fileLines content) k <;> rfl
  · exact loadLoop_nodup none _ GoMap.empty M none h1 List.nodup_nil

/-- C19, at the file with the lines `A=1` and `A = 2`: the mapping is `A -> 2`, of
length 1. -/
theorem loadProperties_last_wins_witness :
    oneFile propsPath contentTwiceSpaced propsPath = .ok contentTwiceSpaced ∧
    (loadProperties (oneFile propsPath contentTwiceSpaced) propsPath).2 = none ∧
    loadProperties (oneFile propsPath contentTwiceSpaced) propsPath
      = (some ⟨[("A".toList, "2".toList)]⟩, none) ∧
    GoMap.len ⟨[("A".toList, "2".toList)]⟩ = 1 ∧
    ∃ M : GoMap, loadProperties (oneFile propsPath contentTwiceSpaced) propsPath
        = (some M, none) ∧
      (∀ k, M.get k = lastValue (fileLines contentTwiceSpaced) k) ∧
      (M.entries.map Prod.fst).Nodup :=
  ⟨rfl, by decide, by decide, rfl,
    loadProperties_last_wins (oneFile propsPath contentTwiceSpaced) propsPath
      contentTwiceSpaced rfl (by decide)⟩

/-! ## Lemmas on `promptForVars` -/

theorem mem_absentNames {vars : List Str} {M : GoMap} {k : Str} :
    k ∈ absentNames vars M ↔ k ∈ vars ∧ M.get k = none := by
  simp [absentNames]

theorem absentNames_cons_some {v : Str} {x : Str} (vs : List Str) {M : GoMap}
    (h : M.get v = some x) : absentNames (v :: vs) M = absentNames vs M := by
  simp [absentNames, h]

theorem absentNames_cons_none {v : Str} (vs : List Str) {M : GoMap} (h : M.get v = none) :
    absentNames (v :: vs) M = v :: absentNames vs M := by
  simp [absentNames, h]

theorem absentNames_set (vs : List Str) (M : GoMap) (v line : Str) :
    absentNames vs (M.set v line) = (absentNames vs M).filter (fun x => decide (x ≠ v)) := by
  unfold absentNames
  rw [List.filter_filter]
  apply List.filter_congr
  intro x _
  rw [get_set]
  by_cases hx : v = x
  · subst hx
    simp
  · have hx2 : ¬ x = v := fun e => hx e.symm
    simp [hx, hx2]

theorem distinct_filter (p : Str → Bool) : ∀ (l : List Str),
    distinct (l.filter p) = (distinct l).filter p := by
  intro l
  induction l with
  | nil => rfl
  | cons v vs ih =>
    by_cases hp : p v = true
    · simp only [List.filter_cons, hp, if_true, distinct, ih, List.filter_filter]
      congr 1
      apply List.filter_congr
      intro x _
      exact Bool.and_comm _ _
    · have hp2 : p v = false := by
        cases h : p v
        · rfl
        · exact absurd h hp
      simp only [List.filter_cons, hp2, Bool.false_eq_true, if_false, distinct, ih,
        List.filter_filter]
      apply List.filter_congr
      intro x _
      by_cases hx : x = v
      · subst hx
        simp [hp2]
      · simp [hx]

theorem distinct_of_nodup : ∀ (l : List Str), l.Nodup → distinct l = l := by
  intro l
  induction l with
  | nil => intro _; rfl
  | cons v vs ih =>
    intro h
    obtain ⟨hv, hvs⟩ := List.nodup_cons.mp h
    simp only [distinct, ih hvs]
    congr 1
    rw [List.filter_eq_self]
    intro x hx
    simp only [decide_eq_true_eq]
    intro e
    subst e
    exact hv hx

theorem not_mem_distinct_filter (v : Str) (l : List Str) :
    v ∉ (distinct l).filter (fun x => decide (x ≠ v)) := by
  intro h
  have := (List.mem_filter.mp h).2
  simp at this

/-- The distinct absent names when the first name is absent: the name, then the distinct
absent names of the rest once the name has a value. -/
theorem distinct_absent_cons_none {v : Str} (vs : List Str) {M : GoMap} (line : Str)
    (h : M.get v = none) :
    distinct (absentNames (v :: vs) M) = v :: distinct (absentNames vs (M.set v line)) := by
  rw [absentNames_cons_none vs h, absentNames_set, distinct_filter]
  rfl

theorem not_mem_distinct_absent_set (vs : List Str) (M : GoMap) (v line : Str) :
    v ∉ distinct (absentNames vs (M.set v line)) := by
  rw [absentNames_set, distinct_filter]
  exact not_mem_distinct_filter v _

theorem lookup_zip_none {k : Str} : ∀ (A L : List Str), k ∉ A →
    GoMap.lookup (A.zip L) k = none := by
  intro A
  induction A with
  | nil => intro L _; rfl
  | cons a A ih =>
    intro L h
    cases L with
    | nil => rfl
    | cons l L =>
      have hak : ¬ a = k := fun e => h (by simp [e])
      simp only [List.zip_cons_cons, GoMap.lookup, hak, if_false]
      exact ih L (fun e => h (List.mem_cons_of_mem _ e))

theorem lookup_zip_some : ∀ (A L : List Str) (i : Nat) (n : Str), A.Nodup →
    A.length ≤ L.length → A[i]? = some n →
    ∃ line, L[i]? = some line ∧ GoMap.lookup (A.zip L) n = some line := by
  intro A
  induction A with
  | nil => intro L i n _ _ h; simp at h
  | cons a A ih =>
    intro L i n hnd hlen h
    cases L with
    | nil => simp at hlen
    | cons l L =>
      obtain ⟨ha, hA⟩ := List.nodup_cons.mp hnd
      cases i with
      | zero =>
        simp only [List.getElem?_cons_zero, Option.some.injEq] at h
        subst h
        exact ⟨l, by simp, by simp [GoMap.lookup]⟩
      | succ j =>
        simp only [List.getElem?_cons_succ] at h
        have hmem : n ∈ A := List.mem_iff_getElem?.mpr ⟨j, h⟩
        have han : ¬ a = n := by
          intro e
          subst e
          exact ha hmem
        obtain ⟨line, h1, h2⟩ := ih L j n hA (by simpa using hlen) h
        refine ⟨line, by simpa using h1, ?_⟩
        simp only [List.zip_cons_cons, GoMap.lookup, han, if_false]
        exact h2

theorem promptText_append (a b : List Str) :
    promptText (a ++ b) = promptText a ++ promptText b := by
  induction a with
  | nil => rfl
  | cons x a ih =>
    show promptText (x :: (a ++ b)) = promptText (x :: a) ++ promptText b
    simp only [promptText, ih, List.append_assoc]

/-- What the loop of `promptForVars` does, with `A` the distinct names without a value, in
the order of the list: with a line for each of them it returns the mapping extended by the
pairs of `A` and the lines, having printed one prompt and read one line for each; with
fewer lines it ends in `input aborted` after the prompt of the first name left without a
line. -/
theorem promptLoop_spec : ∀ (vars : List Str) (M : GoMap) (lines : List Str) (out : Str),
    ((distinct (absentNames vars M)).length ≤ lines.length →
      ∃ R : GoMap, promptLoop vars M lines out
          = .ok ⟨R, lines.drop (distinct (absentNames vars M)).length,
              out ++ promptText (distinct (absentNames vars M))⟩ ∧
        ∀ k, R.get k = match GoMap.lookup ((distinct (absentNames vars M)).zip lines) k with
          | some v => some v
          | none => M.get k) ∧
    (lines.length < (distinct (absentNames vars M)).length →
      promptLoop vars M lines out
        = .error ⟨out ++ promptText ((distinct (absentNames vars M)).take (lines.length + 1)),
            "input aborted".toList⟩) := by
  intro vars
  induction vars with
  | nil =>
    intro M lines out
    constructor
    · intro _
      exact ⟨M, by simp [promptLoop, absentNames, distinct, promptText], fun k => rfl⟩
    · intro h
      simp [absentNames, distinct] at h
  | cons v vs ih =>
    intro M lines out
    cases hv : M.get v with
    | some x =>
      rw [absentNames_cons_some vs hv]
      have e : promptLoop (v :: vs) M lines out = promptLoop vs M lines out := by
        simp only [promptLoop, hv]
      rw [e]
      exact ih M lines out
    | none =>
      cases lines with
      | nil =>
        rw [distinct_absent_cons_none vs [] hv]
        constructor
        · intro h
          simp at h
        · intro _
          simp [promptLoop, hv, promptText]
      | cons l ls =>
        rw [distinct_absent_cons_none vs l hv]
        have e : promptLoop (v :: vs) M (l :: ls) out
            = promptLoop vs (M.set v l) ls (out ++ (v ++ ": ".toList)) := by
          simp only [promptLoop, hv]
        rw [e]
        obtain ⟨ih1, ih2⟩ := ih (M.set v l) ls (out ++ (v ++ ": ".toList))
        constructor
        · intro h
          obtain ⟨R, hR, hget⟩ := ih1 (by simpa using h)
          refine ⟨R, ?_, ?_⟩
          · rw [hR]
            simp [promptText]
          · intro k
            rw [hget k, get_set]
            simp only [List.zip_cons_cons, GoMap.lookup]
            by_cases hk : v = k
            · subst hk
              rw [lookup_zip_none _ _ (not_mem_distinct_absent_set vs M v l)]
              simp
            · simp only [hk, if_false]
              rfl
        · intro h
          rw [ih2 (by simpa using h)]
          simp [promptText]

theorem promptForVars_eq (stdin : Str) (vars : List Str) (existing : GoMap) :
    promptForVars stdin vars existing = promptLoop vars existing (scanLines stdin).1 [] := rfl

theorem deliver_length_le (raw : List Str) : (deliver raw).1.length ≤ raw.length := by
  simp only [deliver, List.length_map]
  exact List.IsPrefix.length_le (List.takeWhile_prefix fits)

/-- A single line that does not fit the buffer: the scanner delivers nothing. -/
theorem scanLines_one_long (l : Str) (hnl : '\n' ∉ l) (hlen : maxScanTokenSize ≤ utf8Len l) :
    rawLines (l ++ ['\n']) = [l] ∧ scanLines (l ++ ['\n']) = ([], some errTooLong) := by
  have hr : rawLines (l ++ ['\n']) = [l] := by
    rw [rawLines_line _ _ hnl]
    rfl
  have h2 : fits l = false := by
    simp only [fits, decide_eq_false_iff_not]
    omega
  refine ⟨hr, ?_⟩
  have ht : List.takeWhile fits [l] = [] := by
    rw [List.takeWhile_cons]
    simp only [h2, Bool.false_eq_true, if_false]
  simp only [scanLines, deliver, hr, ht]
  rfl

theorem stdinLong_scan :
    rawLines stdinLong = [List.replicate maxScanTokenSize 'v'] ∧
    scanLines stdinLong = ([], some errTooLong) := by
  have hnl : '\n' ∉ List.replicate maxScanTokenSize 'v' := by
    simp only [List.mem_replicate, not_and]
    exact fun _ => by decide
  have hlen : maxScanTokenSize ≤ utf8Len (List.replicate maxScanTokenSize 'v') := by
    rw [utf8Len_replicate]
  exact scanLines_one_long _ hnl hlen

theorem absentNames_nodup {vars : List Str} (M : GoMap) (h : vars.Nodup) :
    (absentNames vars M).Nodup := h.filter _

/-! ## The claims on `promptForVars` -/

/-- C12: the claim as stated fails on an input whose line is longer than the line reader
accepts.  With the one name `A`, no value for it, and an input of one line of 65536 bytes,
there are as many lines as names without a value, yet `promptForVars` prints the prompt and
ends in `input aborted`: the scanner delivers no line. -/
theorem promptForVars_long_line_counterexample :
    ["A".toList].Nodup ∧ (absentNames ["A".toList] GoMap.empty).length = 1 ∧
    (rawLines stdinLong).length = 1 ∧
    promptForVars stdinLong ["A".toList] GoMap.empty
      = .error ⟨"A: ".toList, "input aborted".toList⟩ := by
  obtain ⟨hr, hs⟩ := stdinLong_scan
  refine ⟨by decide, by decide, by rw [hr]; rfl, ?_⟩
  rw [promptForVars_eq, hs]
  rfl

/-- C12, amended: for a duplicate-free list of names and an input of which the line reader
delivers at least as many lines as there are names without a value (a line of 65536 bytes
or more ends the delivery), `promptForVars` returns the mapping extended by the value of
the i-th input line for the i-th name without a value; every other key is as before; the
text printed is one prompt `<name>: ` for each name without a value, in order; and one
line has been read for each of them. -/
theorem promptForVars_fills (stdin : Str) (vars : List Str) (existing : GoMap)
    (hnd : vars.Nodup)
    (henough : (absentNames vars existing).length ≤ (scanLines stdin).1.length) :
    ∃ R : GoMap, promptForVars stdin vars existing
        = .ok ⟨R, (scanLines stdin).1.drop (absentNames vars existing).length,
            promptText (absentNames vars existing)⟩ ∧
      (∀ (i : Nat) (n : Str), (absentNames vars existing)[i]? = some n →
        ∃ line, (scanLines stdin).1[i]? = some line ∧ R.get n = some line) ∧
      (∀ k, k ∉ absentNames vars existing → R.get k = existing.get k) := by
  have hA := distinct_of_nodup _ (absentNames_nodup existing hnd)
  obtain ⟨R, hR, hget⟩ := (promptLoop_spec vars existing (scanLines stdin).1 []).1
    (by rw [hA]; exact henough)
  rw [hA] at hR hget
  refine ⟨R, by rw [promptForVars_eq, hR]; rfl, ?_, ?_⟩
  · intro i n hi
    obtain ⟨line, h1, h2⟩ := lookup_zip_some _ _ i n (absentNames_nodup existing hnd) henough hi
    exact ⟨line, h1, by rw [hget n, h2]⟩
  · intro k hk
    rw [hget k, lookup_zip_none _ _ hk]

/-- C12, amended, at the names `A`, `B`, `C` with a value for `B` only and the input lines
`x`, `y`, `z`: `A` gets `x`, `C` gets `y`, `B` keeps its value, the prompts are `A: ` and
`C: `, and the line `z` is left unread. -/
theorem promptForVars_fills_witness :
    ["A".toList, "B".toList, "C".toList].Nodup ∧
    (absentNames ["A".toList, "B".toList, "C".toList] ⟨[("B".toList, "2".toList)]⟩).length
      ≤ (scanLines "x\ny\nz\n".toList).1.length ∧
    promptForVars "x\ny\nz\n".toList ["A".toList, "B".toList, "C".toList]
        ⟨[("B".toList, "2".toList)]⟩
      = .ok ⟨⟨[("B".toList, "2".toList), ("A".toList, "x".toList), ("C".toList, "y".toList)]⟩,
          ["z".toList], "A: C: ".toList⟩ ∧
    ∃ R : GoMap, promptForVars "x\ny\nz\n".toList ["A".toList, "B".toList, "C".toList]
          ⟨[("B".toList, "2".toList)]⟩
        = .ok ⟨R, (scanLines "x\ny\nz\n".toList).1.drop
              (absentNames ["A".toList, "B".toList, "C".toList]
                ⟨[("B".toList, "2".toList)]⟩).length,
            promptText (absentNames ["A".toList, "B".toList, "C".toList]
              ⟨[("B".toList, "2".toList)]⟩)⟩ ∧
      (∀ (i : Nat) (n : Str),
        (absentNames ["A".toList, "B".toList, "C".toList] ⟨[("B".toList, "2".toList)]⟩)[i]?
          = some n →
        ∃ line, (scanLines "x\ny\nz\n".toList).1[i]? = some line ∧ R.get n = some line) ∧
      (∀ k, k ∉ absentNames ["A".toList, "B".toList, "C".toList]
          ⟨[("B".toList, "2".toList)]⟩ → R.get k = GoMap.get ⟨[("B".toList, "2".toList)]⟩ k) :=
  ⟨by decide, by decide, rfl,
    promptForVars_fills "x\ny\nz\n".toList ["A".toList, "B".toList, "C".toList]
      ⟨[("B".toList, "2".toList)]⟩ (by decide) (by decide)⟩

/-- C13: when the input has fewer lines than there are distinct names without a value,
`promptForVars` ends in `input aborted`, an outcome without a mapping.  It has then printed
the prompts of the first names without a value, one more than the lines delivered: the
last prompt is the one of the first name for which no line is left. -/
theorem promptForVars_aborts (stdin : Str) (vars : List Str) (existing : GoMap)
    (h : (rawLines stdin).length < (distinct (absentNames vars existing)).length) :
    (scanLines stdin).1.length < (distinct (absentNames vars existing)).length ∧
    promptForVars stdin vars existing
      = .error ⟨promptText ((distinct (absentNames vars existing)).take
          ((scanLines stdin).1.length + 1)), "input aborted".toList⟩ := by
  have hlt : (scanLines stdin).1.length < (distinct (absentNames vars existing)).length :=
    Nat.lt_of_le_of_lt (deliver_length_le _) h
  refine ⟨hlt, ?_⟩
  rw [promptForVars_eq, (promptLoop_spec vars existing (scanLines stdin).1 []).2 hlt]
  rfl

/-- C13, at the names `A`, `B`, `C`, none with a value, and the one input line `x`: the
outcome is `input aborted` after the prompts `A: ` and `B: `. -/
theorem promptForVars_aborts_witness :
    (rawLines "x\n".toList).length
      < (distinct (absentNames ["A".toList, "B".toList, "C".toList] GoMap.empty)).length ∧
    promptForVars "x\n".toList ["A".toList, "B".toList, "C".toList] GoMap.empty
      = .error ⟨"A: B: ".toList, "input aborted".toList⟩ ∧
    ((scanLines "x\n".toList).1.length
      < (distinct (absentNames ["A".toList, "B".toList, "C".toList] GoMap.empty)).length ∧
    promptForVars "x\n".toList ["A".toList, "B".toList, "C".toList] GoMap.empty
      = .error ⟨promptText ((distinct (absentNames ["A".toList, "B".toList, "C".toList]
            GoMap.empty)).take ((scanLines "x\n".toList).1.length + 1)),
          "input aborted".toList⟩) :=
  ⟨by decide, rfl,
    promptForVars_aborts "x\n".toList ["A".toList, "B".toList, "C".toList] GoMap.empty
      (by decide)⟩

/-- C17: the claim as stated fails on an input whose line is longer than the line reader
accepts.  For the template `${A}`, no properties and an input of one line of 65536 bytes,
there are as many lines as names without a value, yet `promptForVars` ends in
`input aborted` and returns no mapping to render with. -/
theorem interactive_long_line_counterexample :
    listParams tmplA = ["A".toList] ∧
    (absentNames (listParams tmplA) GoMap.empty).length = 1 ∧
    (rawLines stdinLong).length = 1 ∧
    promptForVars stdinLong (listParams tmplA) GoMap.empty
      = .error ⟨"A: ".toList, "input aborted".toList⟩ := by
  obtain ⟨hr, hs⟩ := stdinLong_scan
  have hl : listParams tmplA = ["A".toList] := by decide
  refine ⟨hl, by decide, by rw [hr]; rfl, ?_⟩
  rw [hl, promptForVars_eq, hs]
  rfl

/-- C17, amended: when the line reader delivers at least as many lines of the operator
input as there are names of `listParams T` without a value in the properties (a line of
65536 bytes or more ends the delivery), `promptForVars` returns a mapping that has every
name of `listParams T`, and `processTemplate` succeeds with it. -/
theorem interactive_render_succeeds (T : Str) (P : GoMap) (stdin : Str)
    (henough : (absentNames (listParams T) P).length ≤ (scanLines stdin).1.length) :
    ∃ r : Prompted, promptForVars stdin (listParams T) P = .ok r ∧
      (∀ n ∈ listParams T, r.props.get n ≠ none) ∧
      ∃ text, processTemplate T r.props = .ok (text, none) := by
  have hnd := absentNames_nodup P (listParams_nodup T)
  have hA := distinct_of_nodup _ hnd
  obtain ⟨R, hR, hget⟩ := (promptLoop_spec (listParams T) P (scanLines stdin).1 []).1
    (by rw [hA]; exact henough)
  rw [hA] at hR hget
  have hcov : ∀ n ∈ listParams T, R.get n ≠ none := by
    intro n hn
    rw [hget n]
    cases hl : GoMap.lookup ((absentNames (listParams T) P).zip (scanLines stdin).1) n with
    | some v => exact Option.some_ne_none v
    | none =>
      intro hP
      have hmem : n ∈ absentNames (listParams T) P := mem_absentNames.mpr ⟨hn, hP⟩
      obtain ⟨i, hi⟩ := List.mem_iff_getElem?.mp hmem
      obtain ⟨line, -, h2⟩ := lookup_zip_some _ _ i n hnd henough hi
      rw [hl] at h2
      cases h2
  obtain ⟨text, htext, -⟩ :=
    covered_replaceAll R T (fun n hn => hcov n (occurs_iff_mem_listParams.mp hn))
  exact ⟨_, by rw [promptForVars_eq, hR], hcov, text, processTemplate_ok htext⟩

/-- C17, amended, at the template of `TestProcessTemplate_Success` with a value for `A`
only and the input line `2`: the mapping returned has `A` and `B`, and the template
renders to `A:1, B: 2`. -/
theorem interactive_render_succeeds_witness :
    (absentNames (listParams tmplAB) propsA).length ≤ (scanLines "2\n".toList).1.length ∧
    promptForVars "2\n".toList (listParams tmplAB) propsA = .ok ⟨propsAB, [], "B: ".toList⟩ ∧
    processTemplate tmplAB propsAB = .ok ("A:1, B: 2".toList, none) ∧
    ∃ r : Prompted, promptForVars "2\n".toList (listParams tmplAB) propsA = .ok r ∧
      (∀ n ∈ listParams tmplAB, r.props.get n ≠ none) ∧
      ∃ text, processTemplate tmplAB r.props = .ok (text, none) :=
  ⟨by decide, rfl, rfl,
    interactive_render_succeeds tmplAB propsA "2\n".toList (by decide)⟩

/-! ## Lemmas on `main` -/

theorem processTemplate_ok_iff_covered (T : Str) (M : GoMap) :
    (∃ out, processTemplate T M = .ok (out, none)) ↔ ∀ n ∈ listParams T, M.get n ≠ none := by
  constructor
  · rintro ⟨out, hout⟩ n hn hmiss
    obtain ⟨pre, p, n1, post, e, hp, hmiss1, hpre⟩ :=
      first_missing M T.length T (Nat.le_refl _) ⟨n, occurs_iff_mem_listParams.mpr hn, hmiss⟩
    have := processTemplate_error (replaceAll_stop M post hpre hp hmiss1)
    rw [← e, hout] at this
    cases this
  · intro h
    obtain ⟨out, hout, -⟩ :=
      covered_replaceAll M T (fun n hn => h n (occurs_iff_mem_listParams.mp hn))
    exact ⟨out, processTemplate_ok hout⟩

theorem main_list {flags : Flags} {w : World} {T rest : Str} (hl : flags.list = true)
    (hin : readInput w flags.inPath = (.ok T, rest)) :
    main flags w = ⟨printLines (listParams T), [], 0, none⟩ := by
  simp only [main, hin, hl, if_true]

theorem main_input_error {flags : Flags} {w : World} {err rest : Str}
    (hin : readInput w flags.inPath = (.error err, rest)) :
    main flags w = exitErr [] err := by
  simp only [main, hin]

theorem main_resolve_error {flags : Flags} {w : World} {T rest : Str} {e : Exit}
    (hl : flags.list = false) (hin : readInput w flags.inPath = (.ok T, rest))
    (hres : resolve flags w rest T = .error e) :
    main flags w = exitErr e.stdout e.err := by
  simp only [main, hin, hl, hres, Bool.false_eq_true, if_false]

/-- The run from the call of `processTemplate` on. -/
theorem main_render {flags : Flags} {w : World} {T rest printed : Str} {props : GoMap}
    (hl : flags.list = false) (hin : readInput w flags.inPath = (.ok T, rest))
    (hres : resolve flags w rest T = .ok (props, printed)) :
    main flags w =
      match processTemplate T props with
      | .error err => exitErr printed err
      | .ok (_, some err) => exitErr printed err
      | .ok (output, none) =>
        match writeOutput w output flags.out with
        | (text, file, some err) =>
          ⟨printed ++ text, "Error: ".toList ++ err ++ ['\n'], 1, file⟩
        | (text, file, none) => ⟨printed ++ text, [], 0, file⟩ := by
  simp only [main, hin, hl, hres, Bool.false_eq_true, if_false]

/-- Without `--interactive` the mapping resolved is the one loaded. -/
theorem resolve_non_interactive {flags : Flags} {w : World} {P : GoMap} (rest T : Str)
    (hi : flags.interactive = false)
    (hload : (flags.props = [] ∧ P = GoMap.empty) ∨
      (flags.props ≠ [] ∧ loadProperties w.fs flags.props = (some P, none))) :
    resolve flags w rest T = .ok (P, []) := by
  unfold resolve
  rcases hload with ⟨h1, h2⟩ | ⟨h1, h2⟩
  · subst h2
    simp only [h1, if_true, hi, Bool.false_eq_true, if_false]
    rfl
  · simp only [h1, if_false, h2, hi, Bool.false_eq_true]
    rfl

/-! ## The claims on `main` -/

/-- C14: without `--interactive` (and without `--list-params`) the mapping handed to
`processTemplate` is the loaded one, `P`, the empty mapping when `--properties` is unset,
and the run is the one `processTemplate T P` decides.  When `P` has every name of
`listParams T` the template renders, and the run ends with the writing of the result.
When a name has no value the resolution does not fail: the run fails at the rendering,
with `Error: missing property: n` on the error stream for a name `n` of the template
without a value (the leftmost one), status 1, and nothing written. -/
theorem main_non_interactive (flags : Flags) (w : World) (T rest : Str) (P : GoMap)
    (hl : flags.list = false) (hi : flags.interactive = false)
    (hin : readInput w flags.inPath = (.ok T, rest))
    (hload : (flags.props = [] ∧ P = GoMap.empty) ∨
      (flags.props ≠ [] ∧ loadProperties w.fs flags.props = (some P, none))) :
    resolve flags w rest T = .ok (P, []) ∧
    ((∀ n ∈ listParams T, P.get n ≠ none) →
      ∃ out, processTemplate T P = .ok (out, none) ∧
        main flags w =
          match writeOutput w out flags.out with
          | (text, file, some err) => ⟨text, "Error: ".toList ++ err ++ ['\n'], 1, file⟩
          | (text, file, none) => ⟨text, [], 0, file⟩) ∧
    ((∃ n ∈ listParams T, P.get n = none) →
      ∃ n ∈ listParams T, P.get n = none ∧
        processTemplate T P = .error ("missing property: ".toList ++ n) ∧
        main flags w
          = ⟨[], "Error: missing property: ".toList ++ n ++ ['\n'], 1, none⟩) := by
  have hres := resolve_non_interactive (w := w) rest T hi hload
  have hmain := main_render hl hin hres
  refine ⟨hres, ?_, ?_⟩
  · intro hcov
    obtain ⟨out, hout⟩ := (processTemplate_ok_iff_covered T P).mpr hcov
    refine ⟨out, hout, ?_⟩
    rw [hmain, hout]
    rfl
  · rintro ⟨n, hn, hmiss⟩
    obtain ⟨pre, p, n1, post, e, hp, hmiss1, hpre⟩ :=
      first_missing P T.length T (Nat.le_refl _) ⟨n, occurs_iff_mem_listParams.mpr hn, hmiss⟩
    have herr : processTemplate T P = .error ("missing property: ".toList ++ n1) := by
      rw [e]
      exact processTemplate_error (replaceAll_stop P post hpre hp hmiss1)
    have hn1 : n1 ∈ listParams T :=
      occurs_iff_mem_listParams.mp ⟨pre, p, post, e, hp⟩
    refine ⟨n1, hn1, hmiss1, herr, ?_⟩
    rw [hmain, herr]
    simp [exitErr]

/-- C14, at the template of `TestProcessTemplate_Success` with the properties file that
has `A` only: the mapping resolved is `A -> 1`, and the run fails at the rendering with
`Error: missing property: B`.  With the file that has `A` and `B` the run writes
`A:1, B: 2`; with no properties file it fails with `Error: missing property: A`. -/
theorem main_non_interactive_witness :
    ((flagsRender "a.txt".toList false []).list = false ∧
      (flagsRender "a.txt".toList false []).interactive = false ∧
      readInput (worldAB []) (flagsRender "a.txt".toList false []).inPath = (.ok tmplAB, []) ∧
      ((flagsRender "a.txt".toList false []).props ≠ [] ∧
        loadProperties (worldAB []).fs (flagsRender "a.txt".toList false []).props
          = (some propsA, none))) ∧
    main (flagsRender "a.txt".toList false []) (worldAB [])
      = ⟨[], "Error: missing property: B\n".toList, 1, none⟩ ∧
    main (flagsRender "ab.txt".toList false []) (worldAB [])
      = ⟨"A:1, B: 2".toList, [], 0, none⟩ ∧
    main (flagsRender [] false []) (worldAB [])
      = ⟨[], "Error: missing property: A\n".toList, 1, none⟩ ∧
    (resolve (flagsRender "a.txt".toList false []) (worldAB []) [] tmplAB = .ok (propsA, []) ∧
    ((∀ n ∈ listParams tmplAB, propsA.get n ≠ none) →
      ∃ out, processTemplate tmplAB propsA = .ok (out, none) ∧
        main (flagsRender "a.txt".toList false []) (worldAB []) =
          match writeOutput (worldAB []) out (flagsRender "a.txt".toList false []).out with
          | (text, file, some err) => ⟨text, "Error: ".toList ++ err ++ ['\n'], 1, file⟩
          | (text, file, none) => ⟨text, [], 0, file⟩) ∧
    ((∃ n ∈ listParams tmplAB, propsA.get n = none) →
      ∃ n ∈ listParams tmplAB, propsA.get n = none ∧
        processTemplate tmplAB propsA = .error ("missing property: ".toList ++ n) ∧
        main (flagsRender "a.txt".toList false []) (worldAB [])
          = ⟨[], "Error: missing property: ".toList ++ n ++ ['\n'], 1, none⟩)) :=
  ⟨⟨rfl, rfl, rfl, by decide, by decide⟩, by decide, by decide, by decide,
    main_non_interactive (flagsRender "a.txt".toList false []) (worldAB []) tmplAB [] propsA
      rfl rfl rfl (Or.inr ⟨by decide, by decide⟩)⟩

/-- A load without an error has returned a mapping. -/
theorem loadProperties_some_of_accept (fs : FS) (path : Str)
    (hacc : (loadProperties fs path).2 = none) :
    ∃ P : GoMap, loadProperties fs path = (some P, none) := by
  cases hfs : fs path with
  | error err =>
    simp only [loadProperties, hfs] at hacc
    cases hacc
  | ok content =>
    rw [loadProperties_eq hfs] at hacc ⊢
    obtain ⟨herr, hwf⟩ := loadLoop_accept _ _ _ hacc
    have hd : scanLines content = (fileLines content, none) := deliver_accept _ herr
    rw [hd] at hwf ⊢
    obtain ⟨M, h1, -⟩ := loadLoop_all none (fileLines content) GoMap.empty hwf
    exact ⟨M, h1⟩

theorem resolve_load_error {flags : Flags} {w : World} {err : Str} (rest T : Str)
    (hp : flags.props ≠ []) (he : (loadProperties w.fs flags.props).2 = some err) :
    resolve flags w rest T = .error ⟨[], err⟩ := by
  cases hload : loadProperties w.fs flags.props with
  | mk props e =>
    rw [hload] at he
    simp only at he
    subst he
    simp only [resolve, hp, if_false, hload]

/-- The resolution once the properties are loaded. -/
theorem resolve_loaded {flags : Flags} {w : World} {P : GoMap} (rest T : Str)
    (hload : (flags.props = [] ∧ P = GoMap.empty) ∨
      (flags.props ≠ [] ∧ loadProperties w.fs flags.props = (some P, none))) :
    resolve flags w rest T =
      if flags.interactive then
        match promptForVars rest (listParams T) P with
        | .error e => .error e
        | .ok r => .ok (r.props, r.stdout)
      else .ok (P, []) := by
  unfold resolve
  rcases hload with ⟨h1, h2⟩ | ⟨h1, h2⟩
  · subst h2
    simp only [h1, if_true]
    rfl
  · simp only [h1, if_false, h2]
    rfl

/-- The resolution prints the prompts `promptsOf`, and ends in an error or in a mapping. -/
theorem resolve_outcome {flags : Flags} {w : World} {P : GoMap} (rest T : Str)
    (hload : (flags.props = [] ∧ P = GoMap.empty) ∨
      (flags.props ≠ [] ∧ loadProperties w.fs flags.props = (some P, none))) :
    (∃ err, resolve flags w rest T = .error ⟨promptsOf flags T P rest, err⟩) ∨
    (∃ R, resolve flags w rest T = .ok (R, promptsOf flags T P rest)) := by
  rw [resolve_loaded rest T hload]
  cases hi : flags.interactive with
  | false =>
    right
    refine ⟨P, ?_⟩
    simp only [promptsOf, hi, Bool.false_eq_true, if_false]
  | true =>
    have hA := distinct_of_nodup _ (absentNames_nodup P (listParams_nodup T))
    obtain ⟨h1, h2⟩ := promptLoop_spec (listParams T) P (scanLines rest).1 []
    rw [hA] at h1 h2
    simp only [promptsOf, hi, if_true, promptForVars_eq]
    rcases Nat.lt_or_ge (scanLines rest).1.length (absentNames (listParams T) P).length
      with h | h
    · left
      rw [h2 h]
      exact ⟨_, rfl⟩
    · right
      obtain ⟨R, hR, -⟩ := h1 h
      rw [hR, List.take_of_length_le (Nat.le_succ_of_le h)]
      exact ⟨R, rfl⟩

theorem writeOutput_ok (w : World) {output path : Str} (hw : w.writeErr path output = none)
    (hc : w.createErr path = none) :
    writeOutput w output path
      = if path = [] then (output, none, none) else ([], some (path, output), none) := by
  simp only [writeOutput, hw, hc]

theorem writeOutput_write_error (w : World) {output path err : Str} {n : Nat}
    (hw : w.writeErr path output = some (n, err)) (hc : path ≠ [] → w.createErr path = none) :
    writeOutput w output path
      = if path = [] then (output.take n, none, some err)
        else ([], some (path, output.take n), some err) := by
  by_cases hp : path = []
  · simp only [writeOutput, hp, if_true]
    rw [hp] at hw
    simp only [hw]
  · simp only [writeOutput, hp, if_false, hc hp, hw]

theorem writeOutput_create_error (w : World) (output : Str) {path err : Str} (h : path ≠ [])
    (hc : w.createErr path = some err) : writeOutput w output path = ([], none, some err) := by
  simp only [writeOutput, h, if_false, hc]

/-- The run once the template is read and the properties are loaded. -/
theorem main_loaded (flags : Flags) (w : World) (T rest : Str) (P : GoMap)
    (hl : flags.list = false) (hin : readInput w flags.inPath = (.ok T, rest))
    (hload : (flags.props = [] ∧ P = GoMap.empty) ∨
      (flags.props ≠ [] ∧ loadProperties w.fs flags.props = (some P, none))) :
    RenderedWholeOrNot flags w T rest P := by
  unfold RenderedWholeOrNot
  rcases resolve_outcome (w := w) rest T hload with ⟨err, hres⟩ | ⟨R, hres⟩
  · left
    rw [main_resolve_error hl hin hres]
    exact ⟨rfl, rfl, rfl⟩
  · have hmain := main_render hl hin hres
    cases hp : processTemplate T R with
    | error err =>
      left
      rw [hmain, hp]
      exact ⟨rfl, rfl, rfl⟩
    | ok res =>
      obtain ⟨out, oerr⟩ := res
      cases oerr with
      | some err =>
        left
        rw [hmain, hp]
        exact ⟨rfl, rfl, rfl⟩
      | none =>
        have hmain2 : main flags w =
            match writeOutput w out flags.out with
            | (text, file, some err) =>
              ⟨promptsOf flags T P rest ++ text, "Error: ".toList ++ err ++ ['\n'], 1, file⟩
            | (text, file, none) => ⟨promptsOf flags T P rest ++ text, [], 0, file⟩ := by
          rw [hmain, hp]
        by_cases hcr : flags.out ≠ [] ∧ ∃ err, w.createErr flags.out = some err
        · obtain ⟨ho, err, hc⟩ := hcr
          left
          rw [hmain2, writeOutput_create_error w out ho hc]
          exact ⟨rfl, rfl, List.append_nil _⟩
        · have hc : flags.out ≠ [] → w.createErr flags.out = none := by
            intro ho
            cases hc : w.createErr flags.out with
            | none => rfl
            | some err => exact absurd ⟨ho, err, hc⟩ hcr
          right
          refine ⟨R, out, hres, hp, ?_⟩
          cases hw : w.writeErr flags.out out with
          | some ne =>
            obtain ⟨n, err⟩ := ne
            right
            refine ⟨n, err, rfl, ?_⟩
            by_cases ho : flags.out = []
            · have hm : main flags w = ⟨promptsOf flags T P rest ++ out.take n,
                  "Error: ".toList ++ err ++ ['\n'], 1, none⟩ := by
                rw [hmain2, writeOutput_write_error w hw hc]
                simp only [ho, if_true]
              rw [hm]
              exact ⟨rfl, Or.inl ⟨ho, rfl, rfl⟩⟩
            · have hm : main flags w = ⟨promptsOf flags T P rest ++ [],
                  "Error: ".toList ++ err ++ ['\n'], 1, some (flags.out, out.take n)⟩ := by
                rw [hmain2, writeOutput_write_error w hw hc]
                simp only [ho, if_false]
              rw [hm]
              exact ⟨rfl, Or.inr ⟨ho, List.append_nil _, rfl⟩⟩
          | none =>
            left
            by_cases ho : flags.out = []
            · have hm : main flags w = ⟨promptsOf flags T P rest ++ out, [], 0, none⟩ := by
                rw [hmain2]
                simp only [writeOutput, ho, if_true]
                rw [ho] at hw
                simp only [hw]
              rw [hm]
              exact ⟨rfl, rfl, rfl, Or.inl ⟨ho, rfl, rfl⟩⟩
            · have hm : main flags w
                  = ⟨promptsOf flags T P rest ++ [], [], 0, some (flags.out, out)⟩ := by
                rw [hmain2]
                simp only [writeOutput, ho, if_false, hc ho, hw]
              rw [hm]
              exact ⟨rfl, rfl, rfl, Or.inr ⟨ho, List.append_nil _, rfl⟩⟩

/-- C15: the claim as stated fails in two ways.  With `--interactive` and standard output
as the destination, a run that fails for lack of input (`input aborted`, status 1) has
written the prompt `B: ` to the output destination, and a run that succeeds has written
the prompt before the rendered text, not the rendered text alone.  And when the write of
the rendered text fails after three characters, the run fails (status 1) and the file of
`--out` holds `A:1`, a part of the rendered text `A:1, B: 2`. -/
theorem main_output_counterexample :
    (flagsRender "a.txt".toList true []).out = [] ∧
    main (flagsRender "a.txt".toList true []) (worldAB [])
      = ⟨"B: ".toList, "Error: input aborted\n".toList, 1, none⟩ ∧
    (main (flagsRender "a.txt".toList true []) (worldAB [])).stdout ≠ [] ∧
    main (flagsRender "a.txt".toList true []) (worldAB "2\n".toList)
      = ⟨"B: A:1, B: 2".toList, [], 0, none⟩ ∧
    processTemplate tmplAB propsAB = .ok ("A:1, B: 2".toList, none) ∧
    main (flagsRender "ab.txt".toList false "o.txt".toList) worldFull
      = ⟨[], "Error: write o.txt: no space left on device\n".toList, 1,
          some ("o.txt".toList, "A:1".toList)⟩ := by
  refine ⟨rfl, by decide, by decide, by decide, rfl, by decide⟩

/-- C15, amended: for every run without `--list-params`, one of these holds.  The run
fails before the template and the properties are loaded, and has written nothing at all.
Or the run fails (an aborted input, a missing property, a file of `--out` that cannot be
created) with no file written and nothing on standard output but the prompts of the
names without a value, which are none without `--interactive`.  Or the template renders to
a text, and either the run succeeds and that text is what is written to the output
destination, whole, or the write itself fails and the destination holds the part written
before the error.  On standard output the text follows the prompts. -/
theorem main_all_or_nothing (flags : Flags) (w : World) (hl : flags.list = false) :
    AllOrNothing flags w := by
  unfold AllOrNothing
  cases hin : readInput w flags.inPath with
  | mk res rest =>
    cases res with
    | error err =>
      left
      rw [main_input_error hin]
      exact ⟨rfl, rfl, rfl⟩
    | ok T =>
      by_cases hp : flags.props = []
      · right
        exact ⟨T, rest, GoMap.empty, rfl, Or.inl ⟨hp, rfl⟩,
          main_loaded flags w T rest GoMap.empty hl hin (Or.inl ⟨hp, rfl⟩)⟩
      · cases he : (loadProperties w.fs flags.props).2 with
        | some err =>
          left
          rw [main_resolve_error hl hin (resolve_load_error rest T hp he)]
          exact ⟨rfl, rfl, rfl⟩
        | none =>
          obtain ⟨P, hP⟩ := loadProperties_some_of_accept _ _ he
          right
          exact ⟨T, rest, P, rfl, Or.inr ⟨hp, hP⟩,
            main_loaded flags w T rest P hl hin (Or.inr ⟨hp, hP⟩)⟩

/-- C15, amended, at the template of `TestProcessTemplate_Success` with the properties
file that has `A` only, `--interactive` and `--out o.txt`: with the input line `2` the file
holds `A:1, B: 2` and standard output the prompt `B: `; with no input the run fails, no
file is written and standard output holds the prompt alone. -/
theorem main_all_or_nothing_witness :
    (flagsRender "a.txt".toList true "o.txt".toList).list = false ∧
    main (flagsRender "a.txt".toList true "o.txt".toList) (worldAB "2\n".toList)
      = ⟨"B: ".toList, [], 0, some ("o.txt".toList, "A:1, B: 2".toList)⟩ ∧
    promptsOf (flagsRender "a.txt".toList true "o.txt".toList) tmplAB propsA "2\n".toList
      = "B: ".toList ∧
    main (flagsRender "a.txt".toList true "o.txt".toList) (worldAB [])
      = ⟨"B: ".toList, "Error: input aborted\n".toList, 1, none⟩ ∧
    AllOrNothing (flagsRender "a.txt".toList true "o.txt".toList) (worldAB "2\n".toList) :=
  ⟨rfl, by decide, by decide, by decide,
    main_all_or_nothing (flagsRender "a.txt".toList true "o.txt".toList)
      (worldAB "2\n".toList) rfl⟩

/-- C16: with `--list-params` the run prints the names of `listParams T`, each on a line of
its own, in their order, and that is all: nothing on the error stream, status 0, no file
written.  The run is the same for every other choice of `--properties`, `--interactive`
and `--out` and in every world in which the same template is read: the properties file is
not opened, no line of input is asked for. -/
theorem main_list_params (flags : Flags) (w : World) (T rest : Str) (hl : flags.list = true)
    (hin : readInput w flags.inPath = (.ok T, rest)) :
    main flags w = ⟨printLines (listParams T), [], 0, none⟩ ∧
    ∀ (flags2 : Flags) (w2 : World) (rest2 : Str), flags2.list = true →
      readInput w2 flags2.inPath = (.ok T, rest2) → main flags2 w2 = main flags w := by
  refine ⟨main_list hl hin, ?_⟩
  intro flags2 w2 rest2 hl2 hin2
  rw [main_list hl hin, main_list hl2 hin2]

/-- C16, at the template of `TestProcessTemplate_Success` with `--interactive`,
`--out o.txt` and a properties file that does not exist: the run prints `A` and `B`, each
on its line, and ends with status 0; so it does with a properties file that has an invalid
line. -/
theorem main_list_params_witness :
    ((flagsList "missing.txt".toList).list = true ∧
      readInput (worldAB []) (flagsList "missing.txt".toList).inPath = (.ok tmplAB, [])) ∧
    (loadProperties (worldAB []).fs "missing.txt".toList).2 ≠ none ∧
    (loadProperties (worldAB []).fs "bad.txt".toList).2 ≠ none ∧
    main (flagsList "missing.txt".toList) (worldAB []) = ⟨"A\nB\n".toList, [], 0, none⟩ ∧
    main (flagsList "bad.txt".toList) (worldAB []) = ⟨"A\nB\n".toList, [], 0, none⟩ ∧
    (main (flagsList "missing.txt".toList) (worldAB [])
        = ⟨printLines (listParams tmplAB), [], 0, none⟩ ∧
      ∀ (flags2 : Flags) (w2 : World) (rest2 : Str), flags2.list = true →
        readInput w2 flags2.inPath = (.ok tmplAB, rest2) →
        main flags2 w2 = main (flagsList "missing.txt".toList) (worldAB [])) :=
  ⟨⟨rfl, rfl⟩, by decide, by decide, by decide, by decide,
    main_list_params (flagsList "missing.txt".toList) (worldAB []) tmplAB [] rfl rfl⟩

end TofuTemplateTester
